import Mathlib

set_option maxHeartbeats 2000000
set_option maxRecDepth 8000

/-!
Shallow embedding of the SymTable hash-table implementation
(symtablehash.c and the further disk copies of the same file).

Representation choices:
Keys are C strings, modelled as the list of byte values of the characters
in order (a byte is never 0, the terminator).  Values are C void pointers,
modelled as natural numbers where 0 stands for NULL.  A bucket chain of
Binding nodes linked through psNextBinding is modelled as a Lean list whose
head is the chain head; the bucket array is a list of chains.  malloc
results are passed in as explicit boolean oracles (true = allocation
succeeded), so the failure paths of the C code are part of the model.
-/

/-- A C string key: the list of byte values of the characters, in order. -/
abbrev CStr : Type := List Nat

/-- One key to value binding: struct Binding of symtablehash.c.  The field
pcKey is the owned key copy, pvValue the stored reference (0 models the
NULL pointer).  The chain link psNextBinding is represented by list order. -/
structure Binding where
  pcKey : CStr
  pvValue : Nat
deriving DecidableEq

/-- The fixed expansion size sequence auBucketCounts of symtablehash.c. -/
def auBucketCounts : List Nat := [509, 1021, 2039, 4093, 8191, 16381, 32749, 65521]

/-- BUCKET_COUNTS_LEN of symtablehash.c. -/
def BUCKET_COUNTS_LEN : Nat := 8

/-- Number of values of the C type size_t on the reference platform:
a 64 bit unsigned integer, so arithmetic wraps modulo 2 ^ 64. -/
def sizeTCard : Nat := 2 ^ 64

/-- SymTable_hash of symtablehash.c, lines 61 to 73: polynomial rolling
hash with multiplier 65599 over the characters in order, accumulated in a
size_t (wraparound modulo 2 ^ 64 at every step), reduced modulo
uBucketCount at the end. -/
def SymTable_hash (pcKey : CStr) (uBucketCount : Nat) : Nat :=
  (pcKey.foldl (fun uHash c => (uHash * 65599 + c) % sizeTCard) 0) % uBucketCount

/-- Spec side description of the hash accumulator (spec, section 4.1): the
exact polynomial fold accumulator = accumulator * 65599 + c with no
wraparound applied; the specified hash is this value wrapped at the machine
word width and reduced modulo the bucket count. -/
def polyHash (pcKey : CStr) : Nat :=
  pcKey.foldl (fun uHash c => uHash * 65599 + c) 0

/-- struct SymTable of symtablehash.c: bucket array, bucket count, number
of bindings, and the index into auBucketCounts matching uBucketCount. -/
structure SymTable where
  ppsBuckets : List (List Binding)
  uBucketCount : Nat
  uLength : Nat
  uBucketIndex : Nat
deriving DecidableEq

/-- SymTable_allocateBuckets of symtablehash.c: an array of uBucketCount
buckets, every slot initialized to the empty chain (NULL). -/
def SymTable_allocateBuckets (uBucketCount : Nat) : List (List Binding) :=
  List.replicate uBucketCount []

/-- SymTable_new of symtablehash.c (successful allocation case): empty
table at the first size class. -/
def SymTable_new : SymTable :=
  { ppsBuckets := SymTable_allocateBuckets (auBucketCounts.getD 0 0)
    uBucketCount := auBucketCounts.getD 0 0
    uLength := 0
    uBucketIndex := 0 }

/-- SymTable_getLength of symtablehash.c. -/
def SymTable_getLength (t : SymTable) : Nat := t.uLength

/-- The bucket chain stored at index i (NULL head models the empty chain). -/
def bucketAt (t : SymTable) (i : Nat) : List Binding :=
  t.ppsBuckets.getD i []

/-- Chain scan of the C loops: true when some node of the chain has
strcmp(node.pcKey, pcKey) == 0. -/
def chainContains (pcKey : CStr) : List Binding → Bool
  | [] => false
  | b :: rest => if b.pcKey = pcKey then true else chainContains pcKey rest

/-- Chain scan returning the first matching node, as in
SymTable_findBinding of the part_000 copy, lines 166 to 186. -/
def chainFind (pcKey : CStr) : List Binding → Option Binding
  | [] => none
  | b :: rest => if b.pcKey = pcKey then some b else chainFind pcKey rest

/-- Chain scan of SymTable_get of symtablehash.c, lines 324 to 343:
value of the first matching node, or NULL (0) when the scan ends. -/
def chainGet (pcKey : CStr) : List Binding → Nat
  | [] => 0
  | b :: rest => if b.pcKey = pcKey then b.pvValue else chainGet pcKey rest

/-- Chain update of SymTable_replace of symtablehash.c, lines 272 to 297:
old value of the first matching node together with the chain after the
in-place value write, or none when the scan ends. -/
def chainReplace (pcKey : CStr) (pvValue : Nat) :
    List Binding → Option (Nat × List Binding)
  | [] => none
  | b :: rest =>
    if b.pcKey = pcKey then some (b.pvValue, { b with pvValue := pvValue } :: rest)
    else
      match chainReplace pcKey pvValue rest with
      | none => none
      | some (old, rest2) => some (old, b :: rest2)

/-- The in-place pointer write psBinding.pvValue = pvValue of the helper
based SymTable_replace: the chain with the value of the first matching
node overwritten. -/
def chainSetValue (pcKey : CStr) (pvValue : Nat) : List Binding → List Binding
  | [] => []
  | b :: rest =>
    if b.pcKey = pcKey then { b with pvValue := pvValue } :: rest
    else b :: chainSetValue pcKey pvValue rest

/-- Chain unlink of SymTable_remove of symtablehash.c, lines 347 to 390:
value of the first matching node together with the chain with that node
unlinked, or none when the scan ends. -/
def chainRemove (pcKey : CStr) : List Binding → Option (Nat × List Binding)
  | [] => none
  | b :: rest =>
    if b.pcKey = pcKey then some (b.pvValue, rest)
    else
      match chainRemove pcKey rest with
      | none => none
      | some (v, rest2) => some (v, b :: rest2)

/-- SymTable_put of src/symtablehash.c, lines 218 to 268: inline existence
scan of the hashed bucket; on a fresh key and successful allocations the
new binding is front inserted and uLength incremented.  Returns the C int
result paired with the table afterwards.  This copy never calls
SymTable_expand (the comment before its return reads: No expansion
attempted). -/
def SymTable_put (t : SymTable) (pcKey : CStr) (pvValue : Nat)
    (bindingAllocOk keyAllocOk : Bool) : Nat × SymTable :=
  let uIndex := SymTable_hash pcKey t.uBucketCount
  if chainContains pcKey (bucketAt t uIndex) then (0, t)
  else if bindingAllocOk = false then (0, t)
  else if keyAllocOk = false then (0, t)
  else
    (1, { t with
          ppsBuckets := t.ppsBuckets.set uIndex
            ((⟨pcKey, pvValue⟩ : Binding) :: bucketAt t uIndex)
          uLength := t.uLength + 1 })

/-- SymTable_findBinding of the part_000 copy, lines 166 to 186: hash to
the bucket of pcKey against the current bucket count, then linear scan. -/
def SymTable_findBinding (t : SymTable) (pcKey : CStr) : Option Binding :=
  chainFind pcKey (bucketAt t (SymTable_hash pcKey t.uBucketCount))

/-- All bindings of the table in the traversal order of the C loops
for u in 0 .. uBucketCount - 1 over ppsBuckets[u]: bucket index order,
chain order inside a bucket. -/
def bucketsOf (t : SymTable) : List (List Binding) :=
  (List.range t.uBucketCount).map (fun u => t.ppsBuckets.getD u [])

/-- The list of all bindings in C traversal order. -/
def allBindings (t : SymTable) : List Binding :=
  (bucketsOf t).flatten

/-- Head insertion of one binding into bucket i of a bucket array, the
relink step of the rehash loop of SymTable_expand. -/
def bucketsInsert (bs : List (List Binding)) (i : Nat) (b : Binding) :
    List (List Binding) :=
  bs.set i (b :: bs.getD i [])

/-- SymTable_expand of the part_000 copy, lines 194 to 245 (identical in
symtablehash.c lines 163 to 214 where it is never called): no-op when
already at the last size class, when uLength does not exceed uBucketCount,
or when the new bucket array cannot be allocated; otherwise every binding
is relinked, in traversal order, to the head of its new hashed bucket of
the next size class, and the new array, count and index are installed. -/
def SymTable_expand (t : SymTable) (allocOk : Bool) : SymTable :=
  if BUCKET_COUNTS_LEN ≤ t.uBucketIndex + 1 then t
  else if t.uLength ≤ t.uBucketCount then t
  else if allocOk = false then t
  else
    let uNewBucketIndex := t.uBucketIndex + 1
    let uNewBucketCount := auBucketCounts.getD uNewBucketIndex 0
    { ppsBuckets :=
        (allBindings t).foldl
          (fun bs b => bucketsInsert bs (SymTable_hash b.pcKey uNewBucketCount) b)
          (SymTable_allocateBuckets uNewBucketCount)
      uBucketCount := uNewBucketCount
      uLength := t.uLength
      uBucketIndex := uNewBucketIndex }

/-- SymTable_put of the part_000 copy, lines 255 to 299: existence check
through SymTable_findBinding, then the same front insertion as the inline
copy, then, when the new uLength exceeds uBucketCount, a call to
SymTable_expand (whose own allocation may fail, which is tolerated). -/
def SymTable_putH (t : SymTable) (pcKey : CStr) (pvValue : Nat)
    (bindingAllocOk keyAllocOk expandAllocOk : Bool) : Nat × SymTable :=
  if (SymTable_findBinding t pcKey).isSome then (0, t)
  else if bindingAllocOk = false then (0, t)
  else if keyAllocOk = false then (0, t)
  else
    let uIndex := SymTable_hash pcKey t.uBucketCount
    let t1 : SymTable :=
      { t with
        ppsBuckets := t.ppsBuckets.set uIndex
          ((⟨pcKey, pvValue⟩ : Binding) :: bucketAt t uIndex)
        uLength := t.uLength + 1 }
    (1, if t1.uBucketCount < t1.uLength then SymTable_expand t1 expandAllocOk else t1)

/-- SymTable_replace of src/symtablehash.c, lines 272 to 297 (inline chain
walk): on a match, write the new value into the node and return the old
value; otherwise return NULL (0) and leave the table unchanged. -/
def SymTable_replace (t : SymTable) (pcKey : CStr) (pvValue : Nat) :
    Nat × SymTable :=
  let uIndex := SymTable_hash pcKey t.uBucketCount
  match chainReplace pcKey pvValue (bucketAt t uIndex) with
  | none => (0, t)
  | some (old, newChain) =>
      (old, { t with ppsBuckets := t.ppsBuckets.set uIndex newChain })

/-- SymTable_replace of the part_000 copy, lines 305 to 321: locate the
node through SymTable_findBinding, then write the new value through the
returned pointer. -/
def SymTable_replaceH (t : SymTable) (pcKey : CStr) (pvValue : Nat) :
    Nat × SymTable :=
  match SymTable_findBinding t pcKey with
  | none => (0, t)
  | some psBinding =>
      let uIndex := SymTable_hash pcKey t.uBucketCount
      let newChain := chainSetValue pcKey pvValue (bucketAt t uIndex)
      (psBinding.pvValue, { t with ppsBuckets := t.ppsBuckets.set uIndex newChain })

/-- SymTable_contains of src/symtablehash.c, lines 301 to 320 (inline
chain walk), as the C int it returns. -/
def SymTable_contains (t : SymTable) (pcKey : CStr) : Nat :=
  if chainContains pcKey (bucketAt t (SymTable_hash pcKey t.uBucketCount)) then 1 else 0

/-- SymTable_contains of the part_000 copy, lines 326 to 332, through
SymTable_findBinding. -/
def SymTable_containsH (t : SymTable) (pcKey : CStr) : Nat :=
  if (SymTable_findBinding t pcKey).isSome then 1 else 0

/-- SymTable_get of src/symtablehash.c, lines 324 to 343 (inline chain
walk): the stored value of the first match, or NULL (0). -/
def SymTable_get (t : SymTable) (pcKey : CStr) : Nat :=
  chainGet pcKey (bucketAt t (SymTable_hash pcKey t.uBucketCount))

/-- SymTable_get of the part_000 copy, lines 337 to 349, through
SymTable_findBinding. -/
def SymTable_getH (t : SymTable) (pcKey : CStr) : Nat :=
  match SymTable_findBinding t pcKey with
  | none => 0
  | some psBinding => psBinding.pvValue

/-- SymTable_remove of symtablehash.c, lines 347 to 390 (this function is
byte for byte the same in every disk copy): unlink the first matching
node, decrement uLength and return its value, or return NULL (0) and
change nothing. -/
def SymTable_remove (t : SymTable) (pcKey : CStr) : Nat × SymTable :=
  let uIndex := SymTable_hash pcKey t.uBucketCount
  match chainRemove pcKey (bucketAt t uIndex) with
  | none => (0, t)
  | some (v, newChain) =>
      (v, { t with ppsBuckets := t.ppsBuckets.set uIndex newChain,
                   uLength := t.uLength - 1 })

/-- SymTable_map of symtablehash.c, lines 394 to 417: the sequence of
(key, value) pairs handed to pfApply, in call order. -/
def SymTable_mapList (t : SymTable) : List (CStr × Nat) :=
  (allBindings t).map (fun b => (b.pcKey, b.pvValue))

/-- Fold a list of key value pairs into a table through the inline copy
of put (src/symtablehash.c), with every allocation succeeding. -/
def putSeq (t : SymTable) (kvs : List (CStr × Nat)) : SymTable :=
  kvs.foldl (fun s kv => (SymTable_put s kv.1 kv.2 true true).2) t

/-- Fold a list of key value pairs into a table through the part_000 copy
of put, with every allocation succeeding. -/
def putSeqH (t : SymTable) (kvs : List (CStr × Nat)) : SymTable :=
  kvs.foldl (fun s kv => (SymTable_putH s kv.1 kv.2 true true true).2) t

/-- 510 distinct two character keys paired with the values 1 to 510: the
growth scenario input of the specification. -/
def kvs510 : List (CStr × Nat) :=
  (List.range 510).map (fun n => ([1 + n / 255, 1 + n % 255], n + 1))

/-- The growth scenario table built by the inline put of src/symtablehash.c. -/
def tableA : SymTable := putSeq SymTable_new kvs510

/-- The growth scenario table built by the expanding put of the part_000 copy. -/
def tableB : SymTable := putSeqH SymTable_new kvs510

/-- Data model invariants of the table (spec, section 3): the bucket array
has exactly uBucketCount slots; uBucketIndex is a position of the fixed
size sequence and uBucketCount is its entry there; uLength equals the sum
of the chain lengths across all buckets; no two bindings share a key; and
every binding resides in exactly the bucket selected by hashing its key
against the current uBucketCount. -/
def TableInv (t : SymTable) : Prop :=
  t.ppsBuckets.length = t.uBucketCount
  ∧ t.uBucketIndex < BUCKET_COUNTS_LEN
  ∧ t.uBucketCount = auBucketCounts.getD t.uBucketIndex 0
  ∧ t.uLength = ((bucketsOf t).map List.length).sum
  ∧ ((allBindings t).map Binding.pcKey).Nodup
  ∧ ∀ i, ∀ b ∈ bucketAt t i, SymTable_hash b.pcKey t.uBucketCount = i

/-!
List infrastructure lemmas used throughout the development.
-/

theorem getD_replicate {α : Type} (n i : Nat) (d : α) :
    (List.replicate n d).getD i d = d := by
  induction n generalizing i with
  | zero => simp
  | succ m ih =>
    cases i with
    | zero => simp [List.replicate]
    | succ j => exact ih j

theorem getD_set_self {α : Type} (l : List α) (i : Nat) (x d : α)
    (h : i < l.length) : (l.set i x).getD i d = x := by
  induction l generalizing i with
  | nil => simp at h
  | cons a t ih =>
    cases i with
    | zero => simp
    | succ j => simpa using ih j (by simpa using h)

theorem getD_set_ne {α : Type} (l : List α) (i j : Nat) (x d : α)
    (h : i ≠ j) : (l.set i x).getD j d = l.getD j d := by
  induction l generalizing i j with
  | nil => simp
  | cons a t ih =>
    cases i with
    | zero =>
      cases j with
      | zero => exact absurd rfl h
      | succ j2 => simp
    | succ i2 =>
      cases j with
      | zero => simp
      | succ j2 => simpa using ih i2 j2 (fun he => h (by omega))

theorem getD_of_length_le {α : Type} (l : List α) (i : Nat) (d : α)
    (h : l.length ≤ i) : l.getD i d = d := by
  induction l generalizing i with
  | nil => simp
  | cons a t ih =>
    cases i with
    | zero => simp at h
    | succ j => simpa using ih j (by simpa using h)

theorem flatten_decompose {α : Type} (bs : List (List α)) (i : Nat)
    (h : i < bs.length) :
    bs.flatten = (bs.take i).flatten ++ (bs.getD i [] ++ (bs.drop (i + 1)).flatten) := by
  induction bs generalizing i with
  | nil => simp at h
  | cons c r ih =>
    cases i with
    | zero => simp
    | succ j =>
      have hj : j < r.length := by simpa using h
      simpa [List.flatten_cons, List.append_assoc] using congrArg (c ++ ·) (ih j hj)

theorem flatten_set {α : Type} (bs : List (List α)) (i : Nat) (x : List α)
    (h : i < bs.length) :
    (bs.set i x).flatten = (bs.take i).flatten ++ (x ++ (bs.drop (i + 1)).flatten) := by
  induction bs generalizing i with
  | nil => simp at h
  | cons c r ih =>
    cases i with
    | zero => simp
    | succ j =>
      have hj : j < r.length := by simpa using h
      simpa [List.flatten_cons, List.append_assoc] using congrArg (c ++ ·) (ih j hj)

theorem flatten_headq_of_front_empty {α : Type} (bs : List (List α)) :
    ∀ m : Nat, (∀ j, j < m → bs.getD j [] = []) → bs.getD m [] ≠ [] →
    bs.flatten.head? = (bs.getD m []).head? := by
  induction bs with
  | nil => intro m _ hm; simp at hm
  | cons c r ih =>
    intro m hpre hm
    cases m with
    | zero =>
      cases c with
      | nil => simp at hm
      | cons a t => simp
    | succ m2 =>
      have hc : c = [] := hpre 0 (Nat.succ_pos m2)
      subst hc
      simpa using ih m2 (fun j hj => hpre (j + 1) (by omega)) (by simpa using hm)

theorem chainContains_eq_isSome (k : CStr) (c : List Binding) :
    chainContains k c = (chainFind k c).isSome := by
  induction c with
  | nil => rfl
  | cons b rest ih =>
    by_cases hb : b.pcKey = k
    · simp [chainContains, chainFind, hb]
    · simp [chainContains, chainFind, hb, ih]

theorem chainFind_head_filter (k : CStr) (c : List Binding) :
    chainFind k c = (c.filter (fun b => decide (b.pcKey = k))).head? := by
  induction c with
  | nil => rfl
  | cons b rest ih =>
    by_cases hb : b.pcKey = k
    · simp [chainFind, hb, List.filter_cons]
    · simp [chainFind, hb, List.filter_cons, ih]

theorem chainFind_mem_key (k : CStr) (c : List Binding) (b : Binding)
    (h : chainFind k c = some b) : b ∈ c ∧ b.pcKey = k := by
  induction c with
  | nil => simp [chainFind] at h
  | cons hd rest ih =>
    by_cases hb : hd.pcKey = k
    · simp [chainFind, hb] at h
      subst h
      exact ⟨List.mem_cons_self hd rest, hb⟩
    · simp [chainFind, hb] at h
      rcases ih h with ⟨hmem, hkey⟩
      exact ⟨List.mem_cons_of_mem hd hmem, hkey⟩

theorem chainFind_eq_none_iff (k : CStr) (c : List Binding) :
    chainFind k c = none ↔ ∀ b ∈ c, b.pcKey ≠ k := by
  induction c with
  | nil => simp [chainFind]
  | cons hd rest ih =>
    by_cases hb : hd.pcKey = k
    · simp [chainFind, hb]
    · simp [chainFind, hb, ih]

theorem chainFind_append (k : CStr) (l1 l2 : List Binding) :
    chainFind k (l1 ++ l2) =
      match chainFind k l1 with
      | some b => some b
      | none => chainFind k l2 := by
  induction l1 with
  | nil => simp [chainFind]
  | cons hd rest ih =>
    by_cases hb : hd.pcKey = k
    · simp [chainFind, hb]
    · simp [chainFind, hb, ih]

theorem chainGet_eq (k : CStr) (c : List Binding) :
    chainGet k c = ((chainFind k c).map Binding.pvValue).getD 0 := by
  induction c with
  | nil => rfl
  | cons hd rest ih =>
    by_cases hb : hd.pcKey = k
    · simp [chainGet, chainFind, hb]
    · simp [chainGet, chainFind, hb, ih]

theorem chainReplace_eq_none (k : CStr) (v : Nat) (c : List Binding) :
    chainReplace k v c = none ↔ chainFind k c = none := by
  induction c with
  | nil => simp [chainReplace, chainFind]
  | cons hd rest ih =>
    by_cases hb : hd.pcKey = k
    · simp [chainReplace, chainFind, hb]
    · simp only [chainReplace, chainFind, hb, if_neg hb]
      cases hrec : chainReplace k v rest with
      | none => simpa [hrec] using ih.mp hrec
      | some p =>
        simp only [hrec]
        constructor
        · intro hfalse; cases hfalse
        · intro hnone
          have := ih.mpr hnone
          rw [this] at hrec
          cases hrec

theorem chainReplace_eq_some (k : CStr) (v : Nat) (c : List Binding) (b : Binding)
    (h : chainFind k c = some b) :
    chainReplace k v c = some (b.pvValue, chainSetValue k v c) := by
  induction c with
  | nil => simp [chainFind] at h
  | cons hd rest ih =>
    by_cases hb : hd.pcKey = k
    · simp [chainFind, hb] at h
      subst h
      simp [chainReplace, chainSetValue, hb]
    · simp [chainFind, hb] at h
      simp [chainReplace, chainSetValue, hb, ih h]

theorem chainSetValue_keys (k : CStr) (v : Nat) (c : List Binding) :
    (chainSetValue k v c).map Binding.pcKey = c.map Binding.pcKey := by
  induction c with
  | nil => rfl
  | cons hd rest ih =>
    by_cases hb : hd.pcKey = k
    · simp [chainSetValue, hb]
    · simp [chainSetValue, hb, ih]

theorem chainSetValue_length (k : CStr) (v : Nat) (c : List Binding) :
    (chainSetValue k v c).length = c.length := by
  induction c with
  | nil => rfl
  | cons hd rest ih =>
    by_cases hb : hd.pcKey = k
    · simp [chainSetValue, hb]
    · simp [chainSetValue, hb, ih]

theorem chainGet_setValue_self (k : CStr) (v : Nat) (c : List Binding)
    (h : (chainFind k c).isSome = true) :
    chainGet k (chainSetValue k v c) = v := by
  induction c with
  | nil => simp [chainFind] at h
  | cons hd rest ih =>
    by_cases hb : hd.pcKey = k
    · simp [chainSetValue, chainGet, hb]
    · simp [chainFind, hb] at h
      simp [chainSetValue, chainGet, hb, ih h]

theorem chainRemove_eq_none (k : CStr) (c : List Binding) :
    chainRemove k c = none ↔ chainFind k c = none := by
  induction c with
  | nil => simp [chainRemove, chainFind]
  | cons hd rest ih =>
    by_cases hb : hd.pcKey = k
    · simp [chainRemove, chainFind, hb]
    · simp only [chainRemove, chainFind, hb, if_neg hb]
      cases hrec : chainRemove k rest with
      | none => simpa [hrec] using ih.mp hrec
      | some p =>
        simp only [hrec]
        constructor
        · intro hfalse; cases hfalse
        · intro hnone
          have := ih.mpr hnone
          rw [this] at hrec
          cases hrec

theorem chainRemove_decompose (k : CStr) (c : List Binding) (v : Nat)
    (c2 : List Binding) (h : chainRemove k c = some (v, c2)) :
    ∃ pre b post, c = pre ++ b :: post ∧ c2 = pre ++ post ∧ b.pcKey = k ∧
      b.pvValue = v ∧ ∀ x ∈ pre, x.pcKey ≠ k := by
  induction c generalizing v c2 with
  | nil => simp [chainRemove] at h
  | cons hd rest ih =>
    by_cases hb : hd.pcKey = k
    · simp [chainRemove, hb] at h
      exact ⟨[], hd, rest, by simp, by simp [h.2.symm], hb, h.1, by simp⟩
    · simp only [chainRemove, if_neg hb] at h
      cases hrec : chainRemove k rest with
      | none => rw [hrec] at h; cases h
      | some p =>
        rw [hrec] at h
        obtain ⟨p1, p2⟩ := p
        simp only [Option.some.injEq, Prod.mk.injEq] at h
        rcases ih p1 p2 hrec with ⟨pre, b, post, hc, hc2, hkey, hval, hpre⟩
        refine ⟨hd :: pre, b, post, by simp [hc], ?_, hkey, by omega, ?_⟩
        · rw [← h.2, hc2]; simp
        · intro x hx
          rcases List.mem_cons.mp hx with hx | hx
          · subst hx; exact hb
          · exact hpre x hx

theorem getD_map_range {α : Type} (f : Nat → α) (d : α) (n j : Nat) :
    ((List.range n).map f).getD j d = if j < n then f j else d := by
  induction n generalizing j with
  | zero => simp
  | succ m ih =>
    rw [List.range_succ]
    by_cases hj : j < m
    · rw [List.map_append, List.getD_append _ _ _ _ (by simpa using hj)]
      rw [ih]
      have hj2 : j < m + 1 := by omega
      simp [hj, hj2]
    · by_cases hj2 : j = m
      · subst hj2
        rw [List.map_append]
        rw [List.getD_append_right _ _ _ _ (by simp)]
        simp
      · rw [List.map_append]
        rw [List.getD_append_right _ _ _ _ (by simp; omega)]
        rw [getD_of_length_le _ _ _ (by simp; omega)]
        have hj3 : ¬ j < m + 1 := by omega
        simp [hj3]

theorem flatten_eq_nil_of_getD {α : Type} (bs : List (List α))
    (hz : ∀ j, bs.getD j [] = []) : bs.flatten = [] := by
  induction bs with
  | nil => rfl
  | cons c r ih =>
    have hc : c = [] := hz 0
    subst hc
    simpa using ih (fun j => hz (j + 1))

theorem flatten_eq_getD_of_others_empty {α : Type} (bs : List (List α)) (i : Nat)
    (h : i < bs.length) (hz : ∀ j, j ≠ i → bs.getD j [] = []) :
    bs.flatten = bs.getD i [] := by
  induction bs generalizing i with
  | nil => simp at h
  | cons c r ih =>
    cases i with
    | zero =>
      have hr : r.flatten = [] := flatten_eq_nil_of_getD r (fun j => hz (j + 1) (by omega))
      simp [hr]
    | succ m =>
      have hc : c = [] := hz 0 (by omega)
      subst hc
      have := ih m (by simpa using h) (fun j hj => hz (j + 1) (by omega))
      simpa using this

theorem filter_flatten_eq {α : Type} (p : α → Bool) (l : List (List α)) :
    l.flatten.filter p = (l.map (List.filter p)).flatten := by
  induction l with
  | nil => rfl
  | cons c r ih => simp [List.filter_append, ih]

theorem getD_map_filter {α : Type} (p : α → Bool) (l : List (List α)) (j : Nat) :
    (l.map (List.filter p)).getD j [] = List.filter p (l.getD j []) := by
  induction l generalizing j with
  | nil => simp
  | cons c r ih =>
    cases j with
    | zero => simp
    | succ m => simpa using ih m

theorem bucketsOf_length (t : SymTable) :
    (bucketsOf t).length = t.uBucketCount := by
  simp [bucketsOf]

theorem bucketsOf_getD (t : SymTable) (j : Nat) :
    (bucketsOf t).getD j [] = if j < t.uBucketCount then bucketAt t j else [] := by
  rw [bucketsOf, getD_map_range]
  rfl

theorem allBindings_length (t : SymTable) :
    (allBindings t).length = ((bucketsOf t).map List.length).sum := by
  simp [allBindings]

theorem hash_lt (k : CStr) (n : Nat) (hpos : 0 < n) : SymTable_hash k n < n :=
  Nat.mod_lt _ hpos

theorem bucketCounts_pos : ∀ j, j < BUCKET_COUNTS_LEN → 0 < auBucketCounts.getD j 0 := by
  decide

theorem bucketCounts_mono : ∀ j, j < 7 →
    auBucketCounts.getD j 0 < auBucketCounts.getD (j + 1) 0 := by
  decide

theorem allBindings_filter_key (t : SymTable) (k : CStr)
    (hpos : 0 < t.uBucketCount)
    (hpl : ∀ i, ∀ b ∈ bucketAt t i, SymTable_hash b.pcKey t.uBucketCount = i) :
    (allBindings t).filter (fun b => decide (b.pcKey = k)) =
      (bucketAt t (SymTable_hash k t.uBucketCount)).filter
        (fun b => decide (b.pcKey = k)) := by
  have hidx : SymTable_hash k t.uBucketCount < t.uBucketCount := hash_lt k _ hpos
  rw [allBindings, filter_flatten_eq]
  rw [flatten_eq_getD_of_others_empty _ (SymTable_hash k t.uBucketCount)
      (by rw [List.length_map, bucketsOf_length]; exact hidx) ?_]
  · rw [getD_map_filter, bucketsOf_getD]
    simp [hidx]
  · intro j hj
    rw [getD_map_filter, bucketsOf_getD]
    by_cases hjlt : j < t.uBucketCount
    · simp only [if_pos hjlt]
      rw [List.filter_eq_nil_iff]
      intro b hb hbk
      have hkey : b.pcKey = k := by simpa using hbk
      have := hpl j b hb
      rw [hkey] at this
      exact hj this.symm
    · simp [hjlt]

theorem findBinding_eq_filter_head (t : SymTable) (k : CStr)
    (hpos : 0 < t.uBucketCount)
    (hpl : ∀ i, ∀ b ∈ bucketAt t i, SymTable_hash b.pcKey t.uBucketCount = i) :
    SymTable_findBinding t k =
      ((allBindings t).filter (fun b => decide (b.pcKey = k))).head? := by
  rw [SymTable_findBinding, chainFind_head_filter, allBindings_filter_key t k hpos hpl]

theorem get_eq_findBinding (t : SymTable) (k : CStr) :
    SymTable_get t k = ((SymTable_findBinding t k).map Binding.pvValue).getD 0 := by
  simp [SymTable_get, SymTable_findBinding, chainGet_eq]

theorem contains_eq_findBinding (t : SymTable) (k : CStr) :
    SymTable_contains t k = if (SymTable_findBinding t k).isSome then 1 else 0 := by
  simp [SymTable_contains, SymTable_findBinding, chainContains_eq_isSome]

theorem sum_map_set {α : Type} (g : α → Nat) (bs : List α) (j : Nat) (x d : α)
    (h : j < bs.length) :
    ((bs.set j x).map g).sum + g (bs.getD j d) = (bs.map g).sum + g x := by
  induction bs generalizing j with
  | nil => simp at h
  | cons a r ih =>
    cases j with
    | zero => simp [Nat.add_comm, Nat.add_left_comm]
    | succ m =>
      have := ih m (by simpa using h)
      simp only [List.set, List.map_cons, List.sum_cons, List.getD_cons_succ]
      omega

theorem range_map_getD_self {α : Type} (l : List α) (d : α) :
    (List.range l.length).map (fun u => l.getD u d) = l := by
  apply List.ext_getElem
  · simp
  · intro i h1 h2
    simp only [List.getElem_map, List.getElem_range]
    exact List.getD_eq_getElem l d (by simpa using h2)

theorem map_range_getD_set {α : Type} (pps : List α) (n j : Nat) (c d : α)
    (hlen : j < pps.length) :
    (List.range n).map (fun u => (pps.set j c).getD u d) =
      ((List.range n).map (fun u => pps.getD u d)).set j c := by
  apply List.ext_getElem
  · simp
  · intro i h1 h2
    simp only [List.getElem_map, List.getElem_range, List.getElem_set]
    by_cases hij : j = i
    · subst hij
      rw [getD_set_self _ _ _ _ hlen]
      simp
    · rw [getD_set_ne _ _ _ _ _ hij]
      simp [hij]

theorem mem_allBindings (t : SymTable) (b : Binding) :
    b ∈ allBindings t ↔ ∃ j, j < t.uBucketCount ∧ b ∈ bucketAt t j := by
  simp only [allBindings, bucketsOf, List.mem_flatten, List.mem_map, List.mem_range,
    bucketAt]
  constructor
  · rintro ⟨l, ⟨j, hj, rfl⟩, hb⟩
    exact ⟨j, hj, hb⟩
  · rintro ⟨j, hj, hb⟩
    exact ⟨_, ⟨j, hj, rfl⟩, hb⟩

theorem chainContains_false_iff (k : CStr) (c : List Binding) :
    chainContains k c = false ↔ ∀ b ∈ c, b.pcKey ≠ k := by
  rw [chainContains_eq_isSome]
  cases hfind : chainFind k c with
  | none => simpa using (chainFind_eq_none_iff k c).mp hfind
  | some b =>
    simp only [Option.isSome_some]
    constructor
    · intro hfalse; cases hfalse
    · intro hall
      rcases chainFind_mem_key k c b hfind with ⟨hmem, hkey⟩
      exact absurd hkey (hall b hmem)

theorem key_not_in_table (t : SymTable) (k : CStr)
    (hpl : ∀ i, ∀ b ∈ bucketAt t i, SymTable_hash b.pcKey t.uBucketCount = i)
    (habs : chainContains k (bucketAt t (SymTable_hash k t.uBucketCount)) = false) :
    k ∉ (allBindings t).map Binding.pcKey := by
  intro hk
  rcases List.mem_map.mp hk with ⟨b, hb, hkey⟩
  rcases (mem_allBindings t b).mp hb with ⟨j, hj, hbj⟩
  have hhash := hpl j b hbj
  rw [hkey] at hhash
  subst hhash
  exact absurd hkey ((chainContains_false_iff k _).mp habs b hbj)

theorem put_shape (t : SymTable) (k : CStr) (v : Nat) (aB aK : Bool) :
    SymTable_put t k v aB aK =
      if chainContains k (bucketAt t (SymTable_hash k t.uBucketCount)) then (0, t)
      else if aB = false then (0, t)
      else if aK = false then (0, t)
      else (1, { t with
        ppsBuckets := t.ppsBuckets.set (SymTable_hash k t.uBucketCount)
          ((⟨k, v⟩ : Binding) :: bucketAt t (SymTable_hash k t.uBucketCount)),
        uLength := t.uLength + 1 }) := rfl

theorem TableInv_pos (t : SymTable) (h : TableInv t) : 0 < t.uBucketCount := by
  obtain ⟨-, hidx, hcnt, -, -, -⟩ := h
  rw [hcnt]
  exact bucketCounts_pos _ hidx

theorem bucketsOf_insert (t : SymTable) (j : Nat) (c : List Binding) (L : Nat)
    (hwf : t.ppsBuckets.length = t.uBucketCount) (hj : j < t.uBucketCount) :
    bucketsOf { t with ppsBuckets := t.ppsBuckets.set j c, uLength := L } =
      (bucketsOf t).set j c := by
  show (List.range t.uBucketCount).map (fun u => (t.ppsBuckets.set j c).getD u []) = _
  rw [map_range_getD_set _ _ _ _ _ (by rw [hwf]; exact hj)]
  rfl

theorem TableInv_insert (t : SymTable) (k : CStr) (v : Nat) (h : TableInv t)
    (habs : chainContains k (bucketAt t (SymTable_hash k t.uBucketCount)) = false) :
    TableInv { t with
      ppsBuckets := t.ppsBuckets.set (SymTable_hash k t.uBucketCount)
        ((⟨k, v⟩ : Binding) :: bucketAt t (SymTable_hash k t.uBucketCount)),
      uLength := t.uLength + 1 } := by
  obtain ⟨hwf, hidx, hcnt, hlen, hnd, hpl⟩ := h
  have hpos : 0 < t.uBucketCount := by rw [hcnt]; exact bucketCounts_pos _ hidx
  set uIndex := SymTable_hash k t.uBucketCount with huidx
  have hultn : uIndex < t.uBucketCount := hash_lt k _ hpos
  have hultl : uIndex < t.ppsBuckets.length := by rw [hwf]; exact hultn
  have hbo : bucketsOf { t with
      ppsBuckets := t.ppsBuckets.set uIndex ((⟨k, v⟩ : Binding) :: bucketAt t uIndex),
      uLength := t.uLength + 1 } =
      (bucketsOf t).set uIndex ((⟨k, v⟩ : Binding) :: bucketAt t uIndex) :=
    bucketsOf_insert t uIndex _ _ hwf hultn
  have hgd : (bucketsOf t).getD uIndex [] = bucketAt t uIndex := by
    rw [bucketsOf_getD]; simp [hultn]
  have hblen : uIndex < (bucketsOf t).length := by rw [bucketsOf_length]; exact hultn
  refine ⟨by simpa using hwf, hidx, hcnt, ?_, ?_, ?_⟩
  · show t.uLength + 1 = _
    rw [hbo]
    have := sum_map_set List.length (bucketsOf t) uIndex
      ((⟨k, v⟩ : Binding) :: bucketAt t uIndex) [] hblen
    rw [hgd] at this
    simp only [List.length_cons] at this
    omega
  · show ((allBindings { t with
      ppsBuckets := t.ppsBuckets.set uIndex ((⟨k, v⟩ : Binding) :: bucketAt t uIndex),
      uLength := t.uLength + 1 }).map Binding.pcKey).Nodup
    rw [allBindings, hbo, flatten_set _ _ _ hblen]
    have hdec := flatten_decompose (bucketsOf t) uIndex hblen
    rw [hgd] at hdec
    have hknot : k ∉ (allBindings t).map Binding.pcKey :=
      key_not_in_table t k hpl habs
    rw [allBindings, hdec] at hknot hnd
    have hperm : List.Perm
        ((((bucketsOf t).take uIndex).flatten ++
          (((⟨k, v⟩ : Binding) :: bucketAt t uIndex) ++
            ((bucketsOf t).drop (uIndex + 1)).flatten)).map Binding.pcKey)
        (k :: ((((bucketsOf t).take uIndex).flatten ++
          (bucketAt t uIndex ++
            ((bucketsOf t).drop (uIndex + 1)).flatten)).map Binding.pcKey)) := by
      simp only [List.map_append, List.map_cons]
      exact List.perm_middle
    rw [hperm.nodup_iff]
    exact List.Nodup.cons (by simpa using hknot) hnd
  · intro i b hb
    show SymTable_hash b.pcKey t.uBucketCount = i
    by_cases hi : i = uIndex
    · subst hi
      have hba : bucketAt { t with
          ppsBuckets := t.ppsBuckets.set uIndex ((⟨k, v⟩ : Binding) :: bucketAt t uIndex),
          uLength := t.uLength + 1 } uIndex =
          (⟨k, v⟩ : Binding) :: bucketAt t uIndex := by
        show (t.ppsBuckets.set uIndex _).getD uIndex [] = _
        exact getD_set_self _ _ _ _ hultl
      rw [hba] at hb
      rcases List.mem_cons.mp hb with rfl | hb2
      · exact huidx.symm
      · exact hpl uIndex b hb2
    · have : bucketAt { t with
          ppsBuckets := t.ppsBuckets.set uIndex ((⟨k, v⟩ : Binding) :: bucketAt t uIndex),
          uLength := t.uLength + 1 } i = bucketAt t i := by
        show (t.ppsBuckets.set uIndex _).getD i [] = _
        exact getD_set_ne _ _ _ _ _ (fun he => hi (he.symm))
      rw [this] at hb
      exact hpl i b hb

theorem bucketsInsert_flatten_perm (bs : List (List Binding)) (i : Nat) (b : Binding)
    (h : i < bs.length) :
    List.Perm (bucketsInsert bs i b).flatten (b :: bs.flatten) := by
  rw [bucketsInsert, flatten_set _ _ _ h]
  rw [flatten_decompose bs i h]
  simp only [List.cons_append, List.append_assoc]
  exact List.perm_middle

theorem bucketsInsert_placed (bs : List (List Binding)) (n : Nat) (b : Binding)
    (hpl : ∀ j, ∀ x ∈ bs.getD j [], SymTable_hash x.pcKey n = j)
    (hlen : SymTable_hash b.pcKey n < bs.length) :
    ∀ j, ∀ x ∈ (bucketsInsert bs (SymTable_hash b.pcKey n) b).getD j [],
      SymTable_hash x.pcKey n = j := by
  intro j x hx
  rw [bucketsInsert] at hx
  by_cases hj : j = SymTable_hash b.pcKey n
  · subst hj
    rw [getD_set_self _ _ _ _ hlen] at hx
    rcases List.mem_cons.mp hx with rfl | hx2
    · rfl
    · exact hpl _ x hx2
  · rw [getD_set_ne _ _ _ _ _ (fun he => hj he.symm)] at hx
    exact hpl j x hx

theorem bucketsOf_full (t : SymTable) (hwf : t.ppsBuckets.length = t.uBucketCount) :
    bucketsOf t = t.ppsBuckets := by
  rw [bucketsOf, ← hwf]
  exact range_map_getD_self _ _

theorem rehash_fold (n : Nat) (hn : 0 < n) (L : List Binding) :
    ∀ bs : List (List Binding), bs.length = n →
    (∀ j, ∀ x ∈ bs.getD j [], SymTable_hash x.pcKey n = j) →
    (L.foldl (fun acc b => bucketsInsert acc (SymTable_hash b.pcKey n) b) bs).length = n
    ∧ List.Perm
        (L.foldl (fun acc b => bucketsInsert acc (SymTable_hash b.pcKey n) b) bs).flatten
        (L ++ bs.flatten)
    ∧ ∀ j, ∀ x ∈ (L.foldl (fun acc b => bucketsInsert acc (SymTable_hash b.pcKey n) b)
        bs).getD j [], SymTable_hash x.pcKey n = j := by
  induction L with
  | nil => intro bs hlen hpl; exact ⟨hlen, by simp, hpl⟩
  | cons b L2 ih =>
    intro bs hlen hpl
    have hblt : SymTable_hash b.pcKey n < bs.length := by rw [hlen]; exact hash_lt _ _ hn
    have hlen2 : (bucketsInsert bs (SymTable_hash b.pcKey n) b).length = n := by
      rw [bucketsInsert, List.length_set]; exact hlen
    have hpl2 := bucketsInsert_placed bs n b hpl hblt
    rcases ih (bucketsInsert bs (SymTable_hash b.pcKey n) b) hlen2 hpl2 with
      ⟨hr1, hr2, hr3⟩
    refine ⟨hr1, ?_, hr3⟩
    have hstep := bucketsInsert_flatten_perm bs (SymTable_hash b.pcKey n) b hblt
    refine hr2.trans ?_
    refine (hstep.append_left L2).trans ?_
    exact List.perm_middle

theorem expand_noop_TableInv (t : SymTable) (a : Bool) (h : TableInv t)
    (he : SymTable_expand t a = t) :
    TableInv (SymTable_expand t a)
    ∧ t.uBucketCount ≤ (SymTable_expand t a).uBucketCount
    ∧ (SymTable_expand t a).uLength = t.uLength
    ∧ List.Perm (allBindings (SymTable_expand t a)) (allBindings t) := by
  rw [he]
  exact ⟨h, Nat.le_refl _, rfl, List.Perm.refl _⟩

theorem expand_spec (t : SymTable) (a : Bool) (h : TableInv t) :
    TableInv (SymTable_expand t a)
    ∧ t.uBucketCount ≤ (SymTable_expand t a).uBucketCount
    ∧ (SymTable_expand t a).uLength = t.uLength
    ∧ List.Perm (allBindings (SymTable_expand t a)) (allBindings t) := by
  by_cases h1 : BUCKET_COUNTS_LEN ≤ t.uBucketIndex + 1
  · exact expand_noop_TableInv t a h (by rw [SymTable_expand, if_pos h1])
  · by_cases h2 : t.uLength ≤ t.uBucketCount
    · exact expand_noop_TableInv t a h (by rw [SymTable_expand, if_neg h1, if_pos h2])
    · by_cases h3 : a = false
      · exact expand_noop_TableInv t a h
          (by rw [SymTable_expand, if_neg h1, if_neg h2, if_pos h3])
      · obtain ⟨hwf, hidx, hcnt, hlen, hnd, hpl⟩ := h
        have hexp : SymTable_expand t a =
            { ppsBuckets :=
                (allBindings t).foldl
                  (fun bs b => bucketsInsert bs
                    (SymTable_hash b.pcKey (auBucketCounts.getD (t.uBucketIndex + 1) 0)) b)
                  (SymTable_allocateBuckets (auBucketCounts.getD (t.uBucketIndex + 1) 0)),
              uBucketCount := auBucketCounts.getD (t.uBucketIndex + 1) 0,
              uLength := t.uLength,
              uBucketIndex := t.uBucketIndex + 1 } := by
          rw [SymTable_expand, if_neg h1, if_neg h2, if_neg h3]
        have hidx2 : t.uBucketIndex + 1 < BUCKET_COUNTS_LEN := by
          unfold BUCKET_COUNTS_LEN at h1 ⊢
          omega
        have hn : 0 < auBucketCounts.getD (t.uBucketIndex + 1) 0 :=
          bucketCounts_pos _ hidx2
        have hrep0 : ∀ j, ∀ x ∈ (SymTable_allocateBuckets
            (auBucketCounts.getD (t.uBucketIndex + 1) 0)).getD j ([] : List Binding),
            SymTable_hash x.pcKey (auBucketCounts.getD (t.uBucketIndex + 1) 0) = j := by
          intro j x hx
          rw [SymTable_allocateBuckets, getD_replicate] at hx
          cases hx
        have hreplen : (SymTable_allocateBuckets
            (auBucketCounts.getD (t.uBucketIndex + 1) 0)).length =
            auBucketCounts.getD (t.uBucketIndex + 1) 0 := by
          rw [SymTable_allocateBuckets, List.length_replicate]
        rcases rehash_fold (auBucketCounts.getD (t.uBucketIndex + 1) 0) hn
            (allBindings t) _ hreplen hrep0 with ⟨hr1, hr2, hr3⟩
        have hrepflat : (SymTable_allocateBuckets
            (auBucketCounts.getD (t.uBucketIndex + 1) 0)).flatten = ([] : List Binding) := by
          apply flatten_eq_nil_of_getD
          intro j
          rw [SymTable_allocateBuckets, getD_replicate]
        rw [hrepflat, List.append_nil] at hr2
        rw [hexp]
        have hbo : bucketsOf
            { ppsBuckets :=
                (allBindings t).foldl
                  (fun bs b => bucketsInsert bs
                    (SymTable_hash b.pcKey (auBucketCounts.getD (t.uBucketIndex + 1) 0)) b)
                  (SymTable_allocateBuckets (auBucketCounts.getD (t.uBucketIndex + 1) 0)),
              uBucketCount := auBucketCounts.getD (t.uBucketIndex + 1) 0,
              uLength := t.uLength,
              uBucketIndex := t.uBucketIndex + 1 } =
            (allBindings t).foldl
              (fun bs b => bucketsInsert bs
                (SymTable_hash b.pcKey (auBucketCounts.getD (t.uBucketIndex + 1) 0)) b)
              (SymTable_allocateBuckets (auBucketCounts.getD (t.uBucketIndex + 1) 0)) := by
          exact bucketsOf_full _ hr1
        have hperm : List.Perm (allBindings
            { ppsBuckets :=
                (allBindings t).foldl
                  (fun bs b => bucketsInsert bs
                    (SymTable_hash b.pcKey (auBucketCounts.getD (t.uBucketIndex + 1) 0)) b)
                  (SymTable_allocateBuckets (auBucketCounts.getD (t.uBucketIndex + 1) 0)),
              uBucketCount := auBucketCounts.getD (t.uBucketIndex + 1) 0,
              uLength := t.uLength,
              uBucketIndex := t.uBucketIndex + 1 }) (allBindings t) := by
          rw [allBindings, hbo]
          exact hr2
        refine ⟨⟨hr1, hidx2, rfl, ?_, ?_, ?_⟩, ?_, rfl, hperm⟩
        · show t.uLength = _
          rw [show ((bucketsOf _).map List.length).sum = (allBindings
            { ppsBuckets :=
                (allBindings t).foldl
                  (fun bs b => bucketsInsert bs
                    (SymTable_hash b.pcKey (auBucketCounts.getD (t.uBucketIndex + 1) 0)) b)
                  (SymTable_allocateBuckets (auBucketCounts.getD (t.uBucketIndex + 1) 0)),
              uBucketCount := auBucketCounts.getD (t.uBucketIndex + 1) 0,
              uLength := t.uLength,
              uBucketIndex := t.uBucketIndex + 1 }).length from (allBindings_length _).symm]
          rw [hperm.length_eq, hlen, allBindings_length]
        · exact ((hperm.map Binding.pcKey).nodup_iff).mpr hnd
        · intro j b hb
          exact hr3 j b hb
        · show t.uBucketCount ≤ auBucketCounts.getD (t.uBucketIndex + 1) 0
          rw [hcnt]
          exact Nat.le_of_lt (bucketCounts_mono t.uBucketIndex (by
            unfold BUCKET_COUNTS_LEN at hidx2; omega))

theorem TableInv_wf (t : SymTable) (h : TableInv t) :
    t.ppsBuckets.length = t.uBucketCount := h.1

theorem TableInv_nodup (t : SymTable) (h : TableInv t) :
    ((allBindings t).map Binding.pcKey).Nodup := h.2.2.2.2.1

theorem TableInv_placed (t : SymTable) (h : TableInv t) :
    ∀ i, ∀ b ∈ bucketAt t i, SymTable_hash b.pcKey t.uBucketCount = i := h.2.2.2.2.2

theorem TableInv_put (t : SymTable) (k : CStr) (v : Nat) (aB aK : Bool)
    (h : TableInv t) :
    TableInv (SymTable_put t k v aB aK).2
    ∧ (SymTable_put t k v aB aK).2.uBucketCount = t.uBucketCount := by
  rw [put_shape]
  by_cases hc : chainContains k (bucketAt t (SymTable_hash k t.uBucketCount)) = true
  · rw [if_pos hc]; exact ⟨h, rfl⟩
  · rw [if_neg hc]
    by_cases hB : aB = false
    · rw [if_pos hB]; exact ⟨h, rfl⟩
    · rw [if_neg hB]
      by_cases hK : aK = false
      · rw [if_pos hK]; exact ⟨h, rfl⟩
      · rw [if_neg hK]
        exact ⟨TableInv_insert t k v h (by simpa using hc), rfl⟩

theorem putH_shape (t : SymTable) (k : CStr) (v : Nat) (aB aK aE : Bool) :
    SymTable_putH t k v aB aK aE =
      if (SymTable_findBinding t k).isSome then (0, t)
      else if aB = false then (0, t)
      else if aK = false then (0, t)
      else
        (1, if ({ t with
              ppsBuckets := t.ppsBuckets.set (SymTable_hash k t.uBucketCount)
                ((⟨k, v⟩ : Binding) :: bucketAt t (SymTable_hash k t.uBucketCount)),
              uLength := t.uLength + 1 } : SymTable).uBucketCount <
              t.uLength + 1 then
            SymTable_expand { t with
              ppsBuckets := t.ppsBuckets.set (SymTable_hash k t.uBucketCount)
                ((⟨k, v⟩ : Binding) :: bucketAt t (SymTable_hash k t.uBucketCount)),
              uLength := t.uLength + 1 } aE
          else { t with
              ppsBuckets := t.ppsBuckets.set (SymTable_hash k t.uBucketCount)
                ((⟨k, v⟩ : Binding) :: bucketAt t (SymTable_hash k t.uBucketCount)),
              uLength := t.uLength + 1 }) := rfl

theorem TableInv_putH (t : SymTable) (k : CStr) (v : Nat) (aB aK aE : Bool)
    (h : TableInv t) :
    TableInv (SymTable_putH t k v aB aK aE).2
    ∧ t.uBucketCount ≤ (SymTable_putH t k v aB aK aE).2.uBucketCount := by
  rw [putH_shape]
  by_cases hf : (SymTable_findBinding t k).isSome = true
  · rw [if_pos hf]; exact ⟨h, Nat.le_refl _⟩
  · rw [if_neg hf]
    by_cases hB : aB = false
    · rw [if_pos hB]; exact ⟨h, Nat.le_refl _⟩
    · rw [if_neg hB]
      by_cases hK : aK = false
      · rw [if_pos hK]; exact ⟨h, Nat.le_refl _⟩
      · rw [if_neg hK]
        have habs : chainContains k (bucketAt t (SymTable_hash k t.uBucketCount)) = false := by
          rw [chainContains_eq_isSome]
          simpa [SymTable_findBinding] using hf
        have h1 := TableInv_insert t k v h habs
        by_cases hgrow : ({ t with
            ppsBuckets := t.ppsBuckets.set (SymTable_hash k t.uBucketCount)
              ((⟨k, v⟩ : Binding) :: bucketAt t (SymTable_hash k t.uBucketCount)),
            uLength := t.uLength + 1 } : SymTable).uBucketCount < t.uLength + 1
        · rw [if_pos hgrow]
          rcases expand_spec _ aE h1 with ⟨h2, hmono, -, -⟩
          exact ⟨h2, hmono⟩
        · rw [if_neg hgrow]
          exact ⟨h1, Nat.le_refl _⟩

theorem chainReplace_isSome (k : CStr) (v : Nat) (c : List Binding) (p : Nat × List Binding)
    (h : chainReplace k v c = some p) : ∃ b, chainFind k c = some b := by
  cases hf : chainFind k c with
  | some b => exact ⟨b, rfl⟩
  | none =>
    rw [(chainReplace_eq_none k v c).mpr hf] at h
    cases h

theorem replace_shape_none (t : SymTable) (k : CStr) (v : Nat)
    (h : chainReplace k v (bucketAt t (SymTable_hash k t.uBucketCount)) = none) :
    SymTable_replace t k v = (0, t) := by
  rw [SymTable_replace]
  simp only [h]

theorem replace_shape_some (t : SymTable) (k : CStr) (v : Nat) (old : Nat)
    (c2 : List Binding)
    (h : chainReplace k v (bucketAt t (SymTable_hash k t.uBucketCount)) = some (old, c2)) :
    SymTable_replace t k v =
      (old, { t with ppsBuckets := t.ppsBuckets.set (SymTable_hash k t.uBucketCount) c2 }) := by
  rw [SymTable_replace]
  simp only [h]

theorem bucketsOf_eq_set (t t2 : SymTable) (j : Nat) (c : List Binding)
    (hpb : t2.ppsBuckets = t.ppsBuckets.set j c)
    (hcnt : t2.uBucketCount = t.uBucketCount)
    (hwf : t.ppsBuckets.length = t.uBucketCount) (hj : j < t.uBucketCount) :
    bucketsOf t2 = (bucketsOf t).set j c := by
  rw [bucketsOf, hpb, hcnt, map_range_getD_set _ _ _ _ _ (by rw [hwf]; exact hj)]
  rfl

theorem bucketAt_of_set (t t2 : SymTable) (j : Nat) (c : List Binding)
    (hpb : t2.ppsBuckets = t.ppsBuckets.set j c)
    (hlt : j < t.ppsBuckets.length) :
    bucketAt t2 j = c ∧ ∀ i, i ≠ j → bucketAt t2 i = bucketAt t i := by
  constructor
  · rw [bucketAt, hpb]
    exact getD_set_self _ _ _ _ hlt
  · intro i hi
    rw [bucketAt, hpb, getD_set_ne _ _ _ _ _ (fun he => hi he.symm)]
    rfl

theorem chain_in_range (t : SymTable) (j : Nat)
    (hne : bucketAt t j ≠ []) : j < t.ppsBuckets.length := by
  by_contra hge
  have : bucketAt t j = [] := getD_of_length_le _ _ _ (by omega)
  exact hne this

theorem TableInv_setBucket (t t2 : SymTable) (j : Nat) (c2 : List Binding)
    (h : TableInv t)
    (hpb : t2.ppsBuckets = t.ppsBuckets.set j c2)
    (hcnt : t2.uBucketCount = t.uBucketCount)
    (hbidx : t2.uBucketIndex = t.uBucketIndex)
    (hj : j < t.uBucketCount)
    (hlen2 : t2.uLength + (bucketAt t j).length = t.uLength + c2.length)
    (hkeysub : List.Sublist (c2.map Binding.pcKey) ((bucketAt t j).map Binding.pcKey)
      ∨ c2.map Binding.pcKey = (bucketAt t j).map Binding.pcKey)
    (hmem : ∀ x ∈ c2, ∃ y ∈ bucketAt t j, y.pcKey = x.pcKey) :
    TableInv t2 := by
  obtain ⟨hwf, hidx, hc, hlen, hnd, hpl⟩ := h
  have hjl : j < t.ppsBuckets.length := by rw [hwf]; exact hj
  have hjb : j < (bucketsOf t).length := by rw [bucketsOf_length]; exact hj
  have hbo : bucketsOf t2 = (bucketsOf t).set j c2 := bucketsOf_eq_set t t2 j c2 hpb hcnt hwf hj
  have hgd : (bucketsOf t).getD j [] = bucketAt t j := by rw [bucketsOf_getD]; simp [hj]
  rcases bucketAt_of_set t t2 j c2 hpb hjl with ⟨hbs, hbo2⟩
  refine ⟨?_, by rw [hbidx]; exact hidx, by rw [hcnt, hbidx]; exact hc, ?_, ?_, ?_⟩
  · rw [hpb, List.length_set, hwf, hcnt]
  · have hsum := sum_map_set List.length (bucketsOf t) j c2 [] hjb
    rw [hgd] at hsum
    rw [hbo]
    omega
  · have hdec := flatten_decompose (bucketsOf t) j hjb
    rw [hgd] at hdec
    have hab2 : allBindings t2 =
        ((bucketsOf t).take j).flatten ++ (c2 ++ ((bucketsOf t).drop (j + 1)).flatten) := by
      rw [allBindings, hbo, flatten_set _ _ _ hjb]
    have hab : allBindings t =
        ((bucketsOf t).take j).flatten ++ (bucketAt t j ++ ((bucketsOf t).drop (j + 1)).flatten) := by
      rw [allBindings, hdec]
    rw [hab] at hnd
    rw [hab2]
    rcases hkeysub with hsub | hkeq
    · have hs : List.Sublist
          ((((bucketsOf t).take j).flatten ++ (c2 ++ ((bucketsOf t).drop (j + 1)).flatten)).map
            Binding.pcKey)
          ((((bucketsOf t).take j).flatten ++ (bucketAt t j ++
            ((bucketsOf t).drop (j + 1)).flatten)).map Binding.pcKey) := by
        simp only [List.map_append]
        exact ((hsub.append_right _).append_left _)
      exact hnd.sublist hs
    · simp only [List.map_append] at hnd ⊢
      rw [hkeq]
      exact hnd
  · intro i b hb
    by_cases hij : i = j
    · subst hij
      rw [hbs] at hb
      rcases hmem b hb with ⟨y, hy, hykey⟩
      have := hpl i y hy
      rw [hykey] at this
      rw [hcnt]
      exact this
    · rw [hbo2 i hij] at hb
      rw [hcnt]
      exact hpl i b hb

theorem TableInv_replace (t : SymTable) (k : CStr) (v : Nat) (h : TableInv t) :
    TableInv (SymTable_replace t k v).2
    ∧ (SymTable_replace t k v).2.uBucketCount = t.uBucketCount
    ∧ (SymTable_replace t k v).2.uLength = t.uLength := by
  cases hrep : chainReplace k v (bucketAt t (SymTable_hash k t.uBucketCount)) with
  | none => rw [replace_shape_none t k v hrep]; exact ⟨h, rfl, rfl⟩
  | some p =>
    obtain ⟨old, c2⟩ := p
    rcases chainReplace_isSome _ _ _ _ hrep with ⟨b, hfind⟩
    have heq := chainReplace_eq_some k v _ b hfind
    have hpair := Option.some.inj (heq.symm.trans hrep)
    have hc2 : c2 = chainSetValue k v (bucketAt t (SymTable_hash k t.uBucketCount)) :=
      (congrArg Prod.snd hpair).symm
    have hbmem := chainFind_mem_key _ _ _ hfind
    have hne : bucketAt t (SymTable_hash k t.uBucketCount) ≠ [] :=
      List.ne_nil_of_mem hbmem.1
    have hjl : SymTable_hash k t.uBucketCount < t.ppsBuckets.length :=
      chain_in_range t _ hne
    have hjc : SymTable_hash k t.uBucketCount < t.uBucketCount :=
      Nat.lt_of_lt_of_le hjl (Nat.le_of_eq (TableInv_wf t h))
    rw [replace_shape_some t k v old c2 hrep]
    refine ⟨?_, rfl, rfl⟩
    show TableInv { t with
      ppsBuckets := t.ppsBuckets.set (SymTable_hash k t.uBucketCount) c2 }
    refine TableInv_setBucket t _ (SymTable_hash k t.uBucketCount) c2 h rfl rfl rfl hjc
      ?_ ?_ ?_
    · show t.uLength + _ = t.uLength + _
      rw [hc2, chainSetValue_length]
    · right
      rw [hc2, chainSetValue_keys]
    · intro x hx
      rw [hc2] at hx
      have hxk : x.pcKey ∈ (chainSetValue k v
          (bucketAt t (SymTable_hash k t.uBucketCount))).map Binding.pcKey :=
        List.mem_map_of_mem _ hx
      rw [chainSetValue_keys] at hxk
      rcases List.mem_map.mp hxk with ⟨y, hy, hyk⟩
      exact ⟨y, hy, hyk⟩

theorem remove_shape_none (t : SymTable) (k : CStr)
    (h : chainRemove k (bucketAt t (SymTable_hash k t.uBucketCount)) = none) :
    SymTable_remove t k = (0, t) := by
  rw [SymTable_remove]
  simp only [h]

theorem remove_shape_some (t : SymTable) (k : CStr) (v : Nat) (c2 : List Binding)
    (h : chainRemove k (bucketAt t (SymTable_hash k t.uBucketCount)) = some (v, c2)) :
    SymTable_remove t k =
      (v, { t with
        ppsBuckets := t.ppsBuckets.set (SymTable_hash k t.uBucketCount) c2,
        uLength := t.uLength - 1 }) := by
  rw [SymTable_remove]
  simp only [h]

theorem TableInv_remove (t : SymTable) (k : CStr) (h : TableInv t) :
    TableInv (SymTable_remove t k).2
    ∧ (SymTable_remove t k).2.uBucketCount = t.uBucketCount := by
  cases hrem : chainRemove k (bucketAt t (SymTable_hash k t.uBucketCount)) with
  | none => rw [remove_shape_none t k hrem]; exact ⟨h, rfl⟩
  | some p =>
    obtain ⟨v0, c2⟩ := p
    rcases chainRemove_decompose k _ v0 c2 hrem with
      ⟨pre, bb, post, hcc, hc2, hbk, hbv, hpre⟩
    have hne : bucketAt t (SymTable_hash k t.uBucketCount) ≠ [] := by
      rw [hcc]; exact List.append_ne_nil_of_right_ne_nil _ (by simp)
    have hjl : SymTable_hash k t.uBucketCount < t.ppsBuckets.length :=
      chain_in_range t _ hne
    have hjc : SymTable_hash k t.uBucketCount < t.uBucketCount :=
      Nat.lt_of_lt_of_le hjl (Nat.le_of_eq (TableInv_wf t h))
    have hlenrel : (bucketAt t (SymTable_hash k t.uBucketCount)).length = c2.length + 1 := by
      rw [hcc, hc2]
      simp only [List.length_append, List.length_cons]
      omega
    rw [remove_shape_some t k v0 c2 hrem]
    refine ⟨?_, rfl⟩
    show TableInv { t with
      ppsBuckets := t.ppsBuckets.set (SymTable_hash k t.uBucketCount) c2,
      uLength := t.uLength - 1 }
    refine TableInv_setBucket t _ (SymTable_hash k t.uBucketCount) c2 h rfl rfl rfl hjc
      ?_ ?_ ?_
    · show t.uLength - 1 + _ = t.uLength + _
      have hulen : 1 ≤ t.uLength := by
        obtain ⟨hwf, -, -, hlen, -, -⟩ := h
        have hgd : (bucketsOf t).getD (SymTable_hash k t.uBucketCount) [] =
            bucketAt t (SymTable_hash k t.uBucketCount) := by
          rw [bucketsOf_getD]; simp [hjc]
        have hjb : SymTable_hash k t.uBucketCount < (bucketsOf t).length := by
          rw [bucketsOf_length]; exact hjc
        have hdec := flatten_decompose (bucketsOf t) _ hjb
        rw [hgd] at hdec
        have hablen : (allBindings t).length =
            (((bucketsOf t).take (SymTable_hash k t.uBucketCount)).flatten).length +
            ((bucketAt t (SymTable_hash k t.uBucketCount)).length +
              (((bucketsOf t).drop (SymTable_hash k t.uBucketCount + 1)).flatten).length) := by
          rw [allBindings, hdec]; simp
        rw [allBindings_length] at hablen
        omega
      rw [hlenrel]
      omega
    · left
      have hsub : List.Sublist c2 (bucketAt t (SymTable_hash k t.uBucketCount)) := by
        rw [hcc, hc2]
        exact (List.sublist_cons_self bb post).append_left pre
      exact hsub.map Binding.pcKey
    · intro x hx
      have hxm : x ∈ bucketAt t (SymTable_hash k t.uBucketCount) := by
        rw [hcc]
        rw [hc2] at hx
        rcases List.mem_append.mp hx with hx | hx
        · exact List.mem_append.mpr (Or.inl hx)
        · exact List.mem_append.mpr (Or.inr (List.mem_cons_of_mem bb hx))
      exact ⟨x, hxm, rfl⟩

theorem filter_key_length_le_one (l : List Binding) (k : CStr)
    (hnd : (l.map Binding.pcKey).Nodup) :
    (l.filter (fun b => decide (b.pcKey = k))).length ≤ 1 := by
  induction l with
  | nil => simp
  | cons b rest ih =>
    simp only [List.map_cons, List.nodup_cons] at hnd
    by_cases hb : b.pcKey = k
    · rw [List.filter_cons_of_pos (by simpa using hb)]
      have hrest : rest.filter (fun b => decide (b.pcKey = k)) = [] := by
        rw [List.filter_eq_nil_iff]
        intro x hx hxk
        have hxkey : x.pcKey = k := by simpa using hxk
        exact hnd.1 (by rw [hb, ← hxkey]; exact List.mem_map_of_mem _ hx)
      rw [hrest]
      simp
    · rw [List.filter_cons_of_neg (by simpa using hb)]
      exact ih hnd.2

theorem perm_eq_of_length_le_one {α : Type} (l1 l2 : List α) (hp : List.Perm l1 l2)
    (h1 : l1.length ≤ 1) : l1 = l2 := by
  cases l1 with
  | nil => exact (List.Perm.nil_eq hp).symm ▸ rfl
  | cons a r =>
    cases r with
    | nil => exact ((List.perm_singleton).mp hp.symm).symm
    | cons b r2 => simp at h1

theorem findBinding_expand (t : SymTable) (a : Bool) (k : CStr) (h : TableInv t) :
    SymTable_findBinding (SymTable_expand t a) k = SymTable_findBinding t k := by
  rcases expand_spec t a h with ⟨h2, -, -, hperm⟩
  rw [findBinding_eq_filter_head _ _ (TableInv_pos _ h2) (TableInv_placed _ h2),
      findBinding_eq_filter_head _ _ (TableInv_pos _ h) (TableInv_placed _ h)]
  rw [perm_eq_of_length_le_one _ _ (hperm.filter (fun b => decide (b.pcKey = k)))
    (filter_key_length_le_one _ k (TableInv_nodup _ h2))]

theorem expand_get (t : SymTable) (a : Bool) (k : CStr) (h : TableInv t) :
    SymTable_get (SymTable_expand t a) k = SymTable_get t k := by
  rw [get_eq_findBinding, get_eq_findBinding, findBinding_expand t a k h]

theorem bucketAt_new (i : Nat) : bucketAt SymTable_new i = [] := by
  rw [bucketAt]
  show (List.replicate _ []).getD i [] = []
  exact getD_replicate _ _ _

theorem allBindings_new : allBindings SymTable_new = [] := by
  apply flatten_eq_nil_of_getD
  intro j
  rw [bucketsOf_getD]
  by_cases hj : j < SymTable_new.uBucketCount
  · rw [if_pos hj]; exact bucketAt_new j
  · rw [if_neg hj]

theorem TableInv_new : TableInv SymTable_new := by
  refine ⟨?_, ?_, ?_, ?_, ?_, ?_⟩
  · show (List.replicate _ []).length = _
    rw [List.length_replicate]
    rfl
  · show 0 < BUCKET_COUNTS_LEN
    decide
  · rfl
  · show 0 = ((bucketsOf SymTable_new).map List.length).sum
    rw [← allBindings_length, allBindings_new]
    rfl
  · rw [allBindings_new]
    exact List.nodup_nil
  · intro i b hb
    rw [bucketAt_new] at hb
    cases hb

theorem contains_new (k : CStr) : SymTable_contains SymTable_new k = 0 := by
  rw [SymTable_contains, bucketAt_new]
  rfl

theorem put_present (t : SymTable) (k : CStr) (v : Nat) (aB aK : Bool)
    (hc : chainContains k (bucketAt t (SymTable_hash k t.uBucketCount)) = true) :
    SymTable_put t k v aB aK = (0, t) := by
  rw [put_shape, if_pos hc]

theorem put_fresh_eq (t : SymTable) (k : CStr) (v : Nat)
    (habs : chainContains k (bucketAt t (SymTable_hash k t.uBucketCount)) = false) :
    SymTable_put t k v true true =
      (1, { t with
        ppsBuckets := t.ppsBuckets.set (SymTable_hash k t.uBucketCount)
          ((⟨k, v⟩ : Binding) :: bucketAt t (SymTable_hash k t.uBucketCount)),
        uLength := t.uLength + 1 }) := by
  rw [put_shape, if_neg (by simp [habs]), if_neg (by simp), if_neg (by simp)]

theorem contains_one_iff (t : SymTable) (k : CStr) :
    SymTable_contains t k = 1 ↔
      chainContains k (bucketAt t (SymTable_hash k t.uBucketCount)) = true := by
  rw [SymTable_contains]
  by_cases h : chainContains k (bucketAt t (SymTable_hash k t.uBucketCount)) = true
  · simp [h]
  · simp [h]

theorem contains_zero_iff (t : SymTable) (k : CStr) :
    SymTable_contains t k = 0 ↔
      chainContains k (bucketAt t (SymTable_hash k t.uBucketCount)) = false := by
  rw [SymTable_contains]
  cases hcc : chainContains k (bucketAt t (SymTable_hash k t.uBucketCount)) with
  | false => simp [hcc]
  | true => simp [hcc]

theorem get_put_fresh (t : SymTable) (k : CStr) (v : Nat) (h : TableInv t)
    (habs : chainContains k (bucketAt t (SymTable_hash k t.uBucketCount)) = false) :
    SymTable_get (SymTable_put t k v true true).2 k = v := by
  rw [put_fresh_eq t k v habs]
  have hjl : SymTable_hash k t.uBucketCount < t.ppsBuckets.length := by
    rw [TableInv_wf t h]
    exact hash_lt k _ (TableInv_pos t h)
  show chainGet k ((t.ppsBuckets.set (SymTable_hash k t.uBucketCount) _).getD
    (SymTable_hash k t.uBucketCount) []) = v
  rw [getD_set_self _ _ _ _ hjl]
  simp [chainGet]

theorem get_put_other (t : SymTable) (k k2 : CStr) (v : Nat) (aB aK : Bool)
    (h : TableInv t) (hne : k2 ≠ k) :
    SymTable_get (SymTable_put t k2 v aB aK).2 k = SymTable_get t k := by
  rw [put_shape]
  by_cases hc : chainContains k2 (bucketAt t (SymTable_hash k2 t.uBucketCount)) = true
  · rw [if_pos hc]
  · rw [if_neg hc]
    by_cases hB : aB = false
    · rw [if_pos hB]
    · rw [if_neg hB]
      by_cases hK : aK = false
      · rw [if_pos hK]
      · rw [if_neg hK]
        have hjl : SymTable_hash k2 t.uBucketCount < t.ppsBuckets.length := by
          rw [TableInv_wf t h]
          exact hash_lt k2 _ (TableInv_pos t h)
        rw [SymTable_get, SymTable_get]
        show chainGet k ((t.ppsBuckets.set (SymTable_hash k2 t.uBucketCount) _).getD
          (SymTable_hash k t.uBucketCount) []) = chainGet k (t.ppsBuckets.getD _ [])
        by_cases hh : SymTable_hash k t.uBucketCount = SymTable_hash k2 t.uBucketCount
    /- same bucket: the new head has key k2, which differs from k -/
        · rw [hh, getD_set_self _ _ _ _ hjl]
          show chainGet k ((⟨k2, v⟩ : Binding) :: _) = _
          rw [chainGet]
          simp only [if_neg hne]
          rfl
        · rw [getD_set_ne _ _ _ _ _ (fun he => hh he.symm)]

theorem contains_put_other (t : SymTable) (k k2 : CStr) (v : Nat) (aB aK : Bool)
    (h : TableInv t) (hne : k2 ≠ k) :
    SymTable_contains (SymTable_put t k2 v aB aK).2 k = SymTable_contains t k := by
  rw [put_shape]
  by_cases hc : chainContains k2 (bucketAt t (SymTable_hash k2 t.uBucketCount)) = true
  · rw [if_pos hc]
  · rw [if_neg hc]
    by_cases hB : aB = false
    · rw [if_pos hB]
    · rw [if_neg hB]
      by_cases hK : aK = false
      · rw [if_pos hK]
      · rw [if_neg hK]
        have hjl : SymTable_hash k2 t.uBucketCount < t.ppsBuckets.length := by
          rw [TableInv_wf t h]
          exact hash_lt k2 _ (TableInv_pos t h)
        rw [SymTable_contains, SymTable_contains]
        show (if chainContains k ((t.ppsBuckets.set (SymTable_hash k2 t.uBucketCount) _).getD
          (SymTable_hash k t.uBucketCount) []) then 1 else 0) =
          (if chainContains k (t.ppsBuckets.getD _ []) then 1 else 0)
        by_cases hh : SymTable_hash k t.uBucketCount = SymTable_hash k2 t.uBucketCount
        · rw [hh, getD_set_self _ _ _ _ hjl]
          show (if chainContains k ((⟨k2, v⟩ : Binding) :: _) then 1 else 0) = _
          rw [chainContains]
          simp only [if_neg hne]
          rfl
        · rw [getD_set_ne _ _ _ _ _ (fun he => hh he.symm)]

theorem chain_keys_nodup (t : SymTable) (h : TableInv t) (j : Nat)
    (hj : j < t.uBucketCount) :
    ((bucketAt t j).map Binding.pcKey).Nodup := by
  have hjb : j < (bucketsOf t).length := by rw [bucketsOf_length]; exact hj
  have hgd : (bucketsOf t).getD j [] = bucketAt t j := by
    rw [bucketsOf_getD]; simp [hj]
  have hdec := flatten_decompose (bucketsOf t) j hjb
  rw [hgd] at hdec
  have hnd := TableInv_nodup t h
  rw [allBindings, hdec] at hnd
  simp only [List.map_append] at hnd
  exact (hnd.of_append_right).of_append_left

theorem chainRemove_found (k : CStr) (c : List Binding) (b : Binding)
    (hf : chainFind k c = some b) (hnd : (c.map Binding.pcKey).Nodup) :
    ∃ c2, chainRemove k c = some (b.pvValue, c2) ∧ chainFind k c2 = none ∧
      c.length = c2.length + 1 := by
  cases hrem : chainRemove k c with
  | none =>
    rw [(chainRemove_eq_none k c).mp hrem] at hf
    cases hf
  | some p =>
    obtain ⟨v0, c2⟩ := p
    rcases chainRemove_decompose k c v0 c2 hrem with
      ⟨pre, bb, post, hcc, hc2, hbk, hbv, hpre⟩
    have hfbb : chainFind k c = some bb := by
      rw [hcc, chainFind_append]
      rw [(chainFind_eq_none_iff k pre).mpr hpre]
      rw [chainFind]
      simp [hbk]
    have hb : b = bb := by
      rw [hf] at hfbb
      exact Option.some.inj hfbb.symm |>.symm
    have hvb : b.pvValue = v0 := by rw [hb]; exact hbv
    refine ⟨c2, by rw [hvb], ?_,
      by rw [hcc, hc2]; simp only [List.length_append, List.length_cons]; omega⟩
    rw [hc2, chainFind_append, (chainFind_eq_none_iff k pre).mpr hpre]
    rw [chainFind_eq_none_iff]
    intro x hx hxk
    rw [hcc] at hnd
    simp only [List.map_append, List.map_cons] at hnd
    have hknotpost : k ∉ post.map Binding.pcKey := by
      have h2 := hnd.of_append_right
      rw [List.nodup_cons, hbk] at h2
      exact h2.1
    exact hknotpost (by rw [← hxk]; exact List.mem_map_of_mem _ hx)

theorem putSeq_nil (t : SymTable) : putSeq t [] = t := rfl

theorem putSeq_cons (t : SymTable) (kv : CStr × Nat) (kvs : List (CStr × Nat)) :
    putSeq t (kv :: kvs) = putSeq (SymTable_put t kv.1 kv.2 true true).2 kvs := rfl

theorem putSeq_append (t : SymTable) (l1 l2 : List (CStr × Nat)) :
    putSeq t (l1 ++ l2) = putSeq (putSeq t l1) l2 := by
  rw [putSeq, putSeq, putSeq, List.foldl_append]

theorem putSeqH_nil (t : SymTable) : putSeqH t [] = t := rfl

theorem putSeqH_cons (t : SymTable) (kv : CStr × Nat) (kvs : List (CStr × Nat)) :
    putSeqH t (kv :: kvs) = putSeqH (SymTable_putH t kv.1 kv.2 true true true).2 kvs := rfl

theorem putSeqH_append (t : SymTable) (l1 l2 : List (CStr × Nat)) :
    putSeqH t (l1 ++ l2) = putSeqH (putSeqH t l1) l2 := by
  rw [putSeqH, putSeqH, putSeqH, List.foldl_append]

theorem put_fields (t : SymTable) (k : CStr) (v : Nat) (aB aK : Bool) :
    (SymTable_put t k v aB aK).2.uBucketCount = t.uBucketCount
    ∧ (SymTable_put t k v aB aK).2.uBucketIndex = t.uBucketIndex
    ∧ (SymTable_put t k v aB aK).2.uLength ≤ t.uLength + 1 := by
  rw [put_shape]
  split
  · exact ⟨rfl, rfl, Nat.le_succ _⟩
  · split
    · exact ⟨rfl, rfl, Nat.le_succ _⟩
    · split
      · exact ⟨rfl, rfl, Nat.le_succ _⟩
      · exact ⟨rfl, rfl, Nat.le_refl _⟩

theorem TableInv_putSeq (kvs : List (CStr × Nat)) :
    ∀ t, TableInv t → TableInv (putSeq t kvs) := by
  induction kvs with
  | nil => intro t h; exact h
  | cons kv rest ih =>
    intro t h
    rw [putSeq_cons]
    exact ih _ (TableInv_put t kv.1 kv.2 true true h).1

theorem putSeq_fields (kvs : List (CStr × Nat)) :
    ∀ t, (putSeq t kvs).uBucketCount = t.uBucketCount
    ∧ (putSeq t kvs).uBucketIndex = t.uBucketIndex := by
  induction kvs with
  | nil => intro t; exact ⟨rfl, rfl⟩
  | cons kv rest ih =>
    intro t
    rw [putSeq_cons]
    rcases ih (SymTable_put t kv.1 kv.2 true true).2 with ⟨h1, h2⟩
    rcases put_fields t kv.1 kv.2 true true with ⟨h3, h4, -⟩
    exact ⟨h1.trans h3, h2.trans h4⟩

theorem put_fresh_length (t : SymTable) (k : CStr) (v : Nat)
    (hfresh : SymTable_contains t k = 0) :
    (SymTable_put t k v true true).1 = 1
    ∧ (SymTable_put t k v true true).2.uLength = t.uLength + 1 := by
  have habs := (contains_zero_iff t k).mp hfresh
  rw [put_fresh_eq t k v habs]
  exact ⟨rfl, rfl⟩

theorem putSeq_length (kvs : List (CStr × Nat)) :
    ∀ t, TableInv t → (kvs.map Prod.fst).Nodup →
    (∀ kv ∈ kvs, SymTable_contains t kv.1 = 0) →
    (putSeq t kvs).uLength = t.uLength + kvs.length := by
  induction kvs with
  | nil => intro t _ _ _; rw [putSeq_nil]; simp
  | cons kv rest ih =>
    intro t h hnd hfresh
    have hf0 : SymTable_contains t kv.1 = 0 := hfresh kv (List.mem_cons_self kv rest)
    have hne : ∀ kv2 ∈ rest, kv.1 ≠ kv2.1 := by
      intro kv2 hkv2 he
      simp only [List.map_cons, List.nodup_cons] at hnd
      exact hnd.1 (he ▸ List.mem_map_of_mem Prod.fst hkv2)
    rw [putSeq_cons]
    rw [ih _ (TableInv_put t kv.1 kv.2 true true h).1
      (by simp only [List.map_cons, List.nodup_cons] at hnd; exact hnd.2)
      (by
        intro kv2 hkv2
        rw [contains_put_other t kv2.1 kv.1 kv.2 true true h (hne kv2 hkv2)]
        exact hfresh kv2 (List.mem_cons_of_mem kv hkv2))]
    rw [(put_fresh_length t kv.1 kv.2 hf0).2]
    simp only [List.length_cons]
    omega

theorem putSeq_get_other (kvs : List (CStr × Nat)) (k : CStr) :
    ∀ t, TableInv t → k ∉ kvs.map Prod.fst →
    SymTable_get (putSeq t kvs) k = SymTable_get t k := by
  induction kvs with
  | nil => intro t _ _; rw [putSeq_nil]
  | cons kv rest ih =>
    intro t h hk
    simp only [List.map_cons, List.mem_cons] at hk
    push_neg at hk
    rw [putSeq_cons]
    rw [ih _ (TableInv_put t kv.1 kv.2 true true h).1 hk.2]
    exact get_put_other t k kv.1 kv.2 true true h (fun he => hk.1 he.symm)

theorem putSeq_contains_other (kvs : List (CStr × Nat)) (k : CStr) :
    ∀ t, TableInv t → k ∉ kvs.map Prod.fst →
    SymTable_contains (putSeq t kvs) k = SymTable_contains t k := by
  induction kvs with
  | nil => intro t _ _; rw [putSeq_nil]
  | cons kv rest ih =>
    intro t h hk
    simp only [List.map_cons, List.mem_cons] at hk
    push_neg at hk
    rw [putSeq_cons]
    rw [ih _ (TableInv_put t kv.1 kv.2 true true h).1 hk.2]
    exact contains_put_other t k kv.1 kv.2 true true h (fun he => hk.1 he.symm)

theorem putSeq_get (kvs : List (CStr × Nat)) :
    ∀ t, TableInv t → (kvs.map Prod.fst).Nodup →
    (∀ kv ∈ kvs, SymTable_contains t kv.1 = 0) →
    ∀ kv ∈ kvs, SymTable_get (putSeq t kvs) kv.1 = kv.2 := by
  induction kvs with
  | nil => intro t _ _ _ kv hkv; cases hkv
  | cons kv0 rest ih =>
    intro t h hnd hfresh kv hkv
    simp only [List.map_cons, List.nodup_cons] at hnd
    have hne : ∀ kv2 ∈ rest, kv0.1 ≠ kv2.1 := by
      intro kv2 hkv2 he
      exact hnd.1 (he ▸ List.mem_map_of_mem Prod.fst hkv2)
    have h2 : TableInv (SymTable_put t kv0.1 kv0.2 true true).2 :=
      (TableInv_put t kv0.1 kv0.2 true true h).1
    rcases List.mem_cons.mp hkv with rfl | hkv2
    · rw [putSeq_cons]
      rw [putSeq_get_other rest kv.1 _ h2 hnd.1]
      exact get_put_fresh t kv.1 kv.2 h
        ((contains_zero_iff t kv.1).mp (hfresh kv (List.mem_cons_self kv rest)))
    · rw [putSeq_cons]
      exact ih _ h2 hnd.2
        (by
          intro kv2 hkv2b
          rw [contains_put_other t kv2.1 kv0.1 kv0.2 true true h (hne kv2 hkv2b)]
          exact hfresh kv2 (List.mem_cons_of_mem kv0 hkv2b))
        kv hkv2

theorem putH_eq_put (t : SymTable) (k : CStr) (v : Nat) (aB aK aE : Bool)
    (hlen : t.uLength < t.uBucketCount) :
    SymTable_putH t k v aB aK aE = SymTable_put t k v aB aK := by
  rw [putH_shape, put_shape]
  have hcond : (SymTable_findBinding t k).isSome =
      chainContains k (bucketAt t (SymTable_hash k t.uBucketCount)) :=
    (chainContains_eq_isSome k _).symm
  rw [hcond]
  by_cases hc : chainContains k (bucketAt t (SymTable_hash k t.uBucketCount)) = true
  · rw [if_pos hc, if_pos hc]
  · rw [if_neg hc, if_neg hc]
    by_cases hB : aB = false
    · rw [if_pos hB, if_pos hB]
    · rw [if_neg hB, if_neg hB]
      by_cases hK : aK = false
      · rw [if_pos hK, if_pos hK]
      · rw [if_neg hK, if_neg hK]
        rw [if_neg (by show ¬ t.uBucketCount < t.uLength + 1; omega)]

theorem putSeqH_eq_putSeq (kvs : List (CStr × Nat)) :
    ∀ t, t.uLength + kvs.length ≤ t.uBucketCount →
    putSeqH t kvs = putSeq t kvs := by
  induction kvs with
  | nil => intro t _; rfl
  | cons kv rest ih =>
    intro t hbound
    rw [putSeqH_cons, putSeq_cons]
    simp only [List.length_cons] at hbound
    rw [putH_eq_put t kv.1 kv.2 true true true (by omega)]
    apply ih
    rcases put_fields t kv.1 kv.2 true true with ⟨hcnt, -, hle⟩
    rw [hcnt]
    omega

theorem getH_eq_get (t : SymTable) (k : CStr) :
    SymTable_getH t k = SymTable_get t k := by
  rw [SymTable_getH, get_eq_findBinding]
  cases h : SymTable_findBinding t k with
  | none => rfl
  | some b => rfl

theorem containsH_eq_contains (t : SymTable) (k : CStr) :
    SymTable_containsH t k = SymTable_contains t k := by
  rw [SymTable_containsH, contains_eq_findBinding]

theorem replaceH_eq_replace (t : SymTable) (k : CStr) (v : Nat) :
    SymTable_replaceH t k v = SymTable_replace t k v := by
  rw [SymTable_replaceH]
  cases hf : SymTable_findBinding t k with
  | none =>
    rw [replace_shape_none t k v ((chainReplace_eq_none k v _).mpr hf)]
  | some b =>
    rw [replace_shape_some t k v b.pvValue
      (chainSetValue k v (bucketAt t (SymTable_hash k t.uBucketCount)))
      (chainReplace_eq_some k v _ b hf)]

theorem put_bucket_fresh (t : SymTable) (k : CStr) (v : Nat) (h : TableInv t)
    (hfresh : SymTable_contains t k = 0) (i : Nat) :
    bucketAt (SymTable_put t k v true true).2 i =
      if SymTable_hash k t.uBucketCount = i
      then (⟨k, v⟩ : Binding) :: bucketAt t i
      else bucketAt t i := by
  have habs := (contains_zero_iff t k).mp hfresh
  rw [put_fresh_eq t k v habs]
  have hjl : SymTable_hash k t.uBucketCount < t.ppsBuckets.length := by
    rw [TableInv_wf t h]
    exact hash_lt k _ (TableInv_pos t h)
  by_cases hi : SymTable_hash k t.uBucketCount = i
  · rw [if_pos hi]
    subst hi
    show (t.ppsBuckets.set _ _).getD _ [] = _
    exact getD_set_self _ _ _ _ hjl
  · rw [if_neg hi]
    show (t.ppsBuckets.set _ _).getD i [] = _
    exact getD_set_ne _ _ _ _ _ hi

theorem putSeq_bucket (kvs : List (CStr × Nat)) (i : Nat) :
    ∀ t, TableInv t → (kvs.map Prod.fst).Nodup →
    (∀ kv ∈ kvs, SymTable_contains t kv.1 = 0) →
    bucketAt (putSeq t kvs) i =
      ((kvs.filter (fun kv => decide (SymTable_hash kv.1 t.uBucketCount = i))).reverse.map
        (fun kv => (⟨kv.1, kv.2⟩ : Binding))) ++ bucketAt t i := by
  induction kvs with
  | nil => intro t _ _ _; rw [putSeq_nil]; simp
  | cons kv rest ih =>
    intro t h hnd hfresh
    simp only [List.map_cons, List.nodup_cons] at hnd
    have hf0 : SymTable_contains t kv.1 = 0 := hfresh kv (List.mem_cons_self kv rest)
    have hne : ∀ kv2 ∈ rest, kv.1 ≠ kv2.1 := by
      intro kv2 hkv2 he
      exact hnd.1 (he ▸ List.mem_map_of_mem Prod.fst hkv2)
    have h2 : TableInv (SymTable_put t kv.1 kv.2 true true).2 :=
      (TableInv_put t kv.1 kv.2 true true h).1
    have hfresh2 : ∀ kv2 ∈ rest,
        SymTable_contains (SymTable_put t kv.1 kv.2 true true).2 kv2.1 = 0 := by
      intro kv2 hkv2
      rw [contains_put_other t kv2.1 kv.1 kv.2 true true h (hne kv2 hkv2)]
      exact hfresh kv2 (List.mem_cons_of_mem kv hkv2)
    rw [putSeq_cons, ih _ h2 hnd.2 hfresh2,
      (put_fields t kv.1 kv.2 true true).1,
      put_bucket_fresh t kv.1 kv.2 h hf0 i]
    by_cases hh : SymTable_hash kv.1 t.uBucketCount = i
    · rw [if_pos hh, List.filter_cons_of_pos (by simpa using hh)]
      simp only [List.reverse_cons, List.map_append, List.map_cons, List.map_nil,
        List.append_assoc, List.cons_append, List.nil_append]
    · rw [if_neg hh, List.filter_cons_of_neg (by simpa using hh)]

theorem allBindings_put_perm (t : SymTable) (k : CStr) (v : Nat) (h : TableInv t)
    (hfresh : SymTable_contains t k = 0) :
    List.Perm (allBindings (SymTable_put t k v true true).2)
      ((⟨k, v⟩ : Binding) :: allBindings t) := by
  have habs := (contains_zero_iff t k).mp hfresh
  rw [put_fresh_eq t k v habs]
  have hjc : SymTable_hash k t.uBucketCount < t.uBucketCount :=
    hash_lt k _ (TableInv_pos t h)
  have hjb : SymTable_hash k t.uBucketCount < (bucketsOf t).length := by
    rw [bucketsOf_length]; exact hjc
  have hgd : (bucketsOf t).getD (SymTable_hash k t.uBucketCount) [] =
      bucketAt t (SymTable_hash k t.uBucketCount) := by
    rw [bucketsOf_getD]; simp [hjc]
  have hbo : bucketsOf { t with
      ppsBuckets := t.ppsBuckets.set (SymTable_hash k t.uBucketCount)
        ((⟨k, v⟩ : Binding) :: bucketAt t (SymTable_hash k t.uBucketCount)),
      uLength := t.uLength + 1 } =
      bucketsInsert (bucketsOf t) (SymTable_hash k t.uBucketCount) ⟨k, v⟩ := by
    rw [bucketsInsert, hgd]
    exact bucketsOf_insert t _ _ _ (TableInv_wf t h) hjc
  show List.Perm (allBindings _) _
  rw [allBindings, hbo]
  exact bucketsInsert_flatten_perm (bucketsOf t) _ _ hjb

theorem putSeq_perm (kvs : List (CStr × Nat)) :
    ∀ t, TableInv t → (kvs.map Prod.fst).Nodup →
    (∀ kv ∈ kvs, SymTable_contains t kv.1 = 0) →
    List.Perm (allBindings (putSeq t kvs))
      ((kvs.map (fun kv => (⟨kv.1, kv.2⟩ : Binding))) ++ allBindings t) := by
  induction kvs with
  | nil => intro t _ _ _; rw [putSeq_nil]; simp
  | cons kv rest ih =>
    intro t h hnd hfresh
    simp only [List.map_cons, List.nodup_cons] at hnd
    have hf0 : SymTable_contains t kv.1 = 0 := hfresh kv (List.mem_cons_self kv rest)
    have hne : ∀ kv2 ∈ rest, kv.1 ≠ kv2.1 := by
      intro kv2 hkv2 he
      exact hnd.1 (he ▸ List.mem_map_of_mem Prod.fst hkv2)
    have h2 : TableInv (SymTable_put t kv.1 kv.2 true true).2 :=
      (TableInv_put t kv.1 kv.2 true true h).1
    have hfresh2 : ∀ kv2 ∈ rest,
        SymTable_contains (SymTable_put t kv.1 kv.2 true true).2 kv2.1 = 0 := by
      intro kv2 hkv2
      rw [contains_put_other t kv2.1 kv.1 kv.2 true true h (hne kv2 hkv2)]
      exact hfresh kv2 (List.mem_cons_of_mem kv hkv2)
    rw [putSeq_cons]
    refine (ih _ h2 hnd.2 hfresh2).trans ?_
    refine ((allBindings_put_perm t kv.1 kv.2 h hf0).append_left _).trans ?_
    simp only [List.map_cons, List.cons_append]
    exact List.perm_middle

theorem rehash_fold_bucket (n : Nat) (L : List Binding) (i : Nat) :
    ∀ bs : List (List Binding), i < bs.length →
    (L.foldl (fun acc b => bucketsInsert acc (SymTable_hash b.pcKey n) b) bs).getD i [] =
      (L.filter (fun b => decide (SymTable_hash b.pcKey n = i))).reverse ++
        bs.getD i [] := by
  induction L with
  | nil => intro bs _; simp
  | cons b L2 ih =>
    intro bs hi
    rw [List.foldl_cons]
    have hi2 : i < (bucketsInsert bs (SymTable_hash b.pcKey n) b).length := by
      rw [bucketsInsert, List.length_set]; exact hi
    rw [ih _ hi2]
    by_cases hh : SymTable_hash b.pcKey n = i
    · rw [List.filter_cons_of_pos (by simpa using hh)]
      have hset : (bucketsInsert bs (SymTable_hash b.pcKey n) b).getD i [] =
          b :: bs.getD i [] := by
        rw [bucketsInsert]
        subst hh
        rw [getD_set_self _ _ _ _ hi]
      rw [hset]
      simp only [List.reverse_cons, List.append_assoc, List.cons_append, List.nil_append]
    · rw [List.filter_cons_of_neg (by simpa using hh)]
      have hset : (bucketsInsert bs (SymTable_hash b.pcKey n) b).getD i [] =
          bs.getD i [] := by
        rw [bucketsInsert]
        exact getD_set_ne _ _ _ _ _ hh
      rw [hset]

theorem kvs510_keys_nodup : (kvs510.map Prod.fst).Nodup := by
  rw [kvs510, List.map_map]
  refine List.Nodup.map_on ?_ (List.nodup_range 510)
  intro a ha b hb heq
  simp only [Function.comp_apply] at heq
  simp only [List.cons.injEq, and_true] at heq
  omega

theorem kvs510_eq : kvs510 =
    ((List.range 509).map (fun n => (([1 + n / 255, 1 + n % 255] : CStr), n + 1))) ++
      [(([2, 255] : CStr), (510 : Nat))] := by
  rw [kvs510, List.range_succ, List.map_append]
  rfl

theorem putSeq_single (t : SymTable) (kv : CStr × Nat) :
    putSeq t [kv] = (SymTable_put t kv.1 kv.2 true true).2 := rfl

theorem tableA_eq_last : tableA =
    (SymTable_put (putSeq SymTable_new
      ((List.range 509).map (fun n => (([1 + n / 255, 1 + n % 255] : CStr), n + 1))))
      [2, 255] 510 true true).2 := by
  show putSeq SymTable_new kvs510 = _
  rw [kvs510_eq, putSeq_append, putSeq_single]

theorem scenario509 :
    TableInv (putSeq SymTable_new
      ((List.range 509).map (fun n => (([1 + n / 255, 1 + n % 255] : CStr), n + 1))))
    ∧ (putSeq SymTable_new
      ((List.range 509).map (fun n => (([1 + n / 255, 1 + n % 255] : CStr), n + 1)))).uLength = 509
    ∧ (putSeq SymTable_new
      ((List.range 509).map (fun n => (([1 + n / 255, 1 + n % 255] : CStr), n + 1)))).uBucketCount = 509
    ∧ SymTable_contains (putSeq SymTable_new
      ((List.range 509).map (fun n => (([1 + n / 255, 1 + n % 255] : CStr), n + 1)))) [2, 255] = 0 := by
  have hnd_app : ((((List.range 509).map
      (fun n => (([1 + n / 255, 1 + n % 255] : CStr), n + 1))).map Prod.fst) ++
      ([(([2, 255] : CStr), (510 : Nat))].map Prod.fst)).Nodup := by
    rw [← List.map_append, ← kvs510_eq]
    exact kvs510_keys_nodup
  rw [List.nodup_append] at hnd_app
  obtain ⟨hnd509, -, hdisj⟩ := hnd_app
  have hfresh509 : ∀ kv ∈ (List.range 509).map
      (fun n => (([1 + n / 255, 1 + n % 255] : CStr), n + 1)),
      SymTable_contains SymTable_new kv.1 = 0 := fun kv _ => contains_new kv.1
  refine ⟨TableInv_putSeq _ _ TableInv_new, ?_, (putSeq_fields _ _).1, ?_⟩
  · rw [putSeq_length _ _ TableInv_new hnd509 hfresh509]
    simp
    rfl
  · have hlast_not : ([2, 255] : CStr) ∉ ((List.range 509).map
        (fun n => (([1 + n / 255, 1 + n % 255] : CStr), n + 1))).map Prod.fst := by
      intro hmem
      exact hdisj hmem (by simp)
    rw [putSeq_contains_other _ _ _ TableInv_new hlast_not]
    exact contains_new _

theorem putSeqH_pair (t : SymTable) (k : CStr) (v : Nat) :
    putSeqH t [(k, v)] = (SymTable_putH t k v true true true).2 := rfl

theorem putH_fresh_grow (t : SymTable) (k : CStr) (v : Nat) (aE : Bool)
    (habs : chainContains k (bucketAt t (SymTable_hash k t.uBucketCount)) = false)
    (hgrow : t.uBucketCount < t.uLength + 1) :
    (SymTable_putH t k v true true aE).2 =
      SymTable_expand (SymTable_put t k v true true).2 aE := by
  rw [putH_shape, put_fresh_eq t k v habs]
  rw [if_neg (by
    rw [show (SymTable_findBinding t k).isSome =
      chainContains k (bucketAt t (SymTable_hash k t.uBucketCount)) from
      (chainContains_eq_isSome _ _).symm, habs]
    simp)]
  rw [if_neg (by simp), if_neg (by simp)]
  rw [if_pos (show ({ t with
      ppsBuckets := t.ppsBuckets.set (SymTable_hash k t.uBucketCount)
        ((⟨k, v⟩ : Binding) :: bucketAt t (SymTable_hash k t.uBucketCount)),
      uLength := t.uLength + 1 } : SymTable).uBucketCount < t.uLength + 1 from hgrow)]

theorem tableB_eq_expand : tableB = SymTable_expand tableA true := by
  rcases scenario509 with ⟨-, hlen509, hcnt509, hfresh_last⟩
  have hstep1 : tableB = putSeqH (putSeqH SymTable_new
      ((List.range 509).map (fun n => (([1 + n / 255, 1 + n % 255] : CStr), n + 1))))
      [(([2, 255] : CStr), (510 : Nat))] := by
    show putSeqH SymTable_new kvs510 = _
    rw [kvs510_eq, putSeqH_append]
  have hstep2 : putSeqH SymTable_new
      ((List.range 509).map (fun n => (([1 + n / 255, 1 + n % 255] : CStr), n + 1))) =
      putSeq SymTable_new
      ((List.range 509).map (fun n => (([1 + n / 255, 1 + n % 255] : CStr), n + 1))) := by
    apply putSeqH_eq_putSeq
    rw [List.length_map, List.length_range]
    show 0 + 509 ≤ 509
    omega
  rw [hstep1, hstep2, putSeqH_pair, tableA_eq_last]
  generalize putSeq SymTable_new
      ((List.range 509).map (fun n => (([1 + n / 255, 1 + n % 255] : CStr), n + 1))) = T
        at hlen509 hcnt509 hfresh_last ⊢
  exact putH_fresh_grow T [2, 255] 510 true
    ((contains_zero_iff T [2, 255]).mp hfresh_last)
    (by rw [hcnt509, hlen509]; omega)

theorem expand_fields_main (t : SymTable) (a : Bool)
    (h1 : ¬ BUCKET_COUNTS_LEN ≤ t.uBucketIndex + 1)
    (h2 : ¬ t.uLength ≤ t.uBucketCount) (h3 : ¬ a = false) :
    (SymTable_expand t a).uBucketCount = auBucketCounts.getD (t.uBucketIndex + 1) 0
    ∧ (SymTable_expand t a).uLength = t.uLength := by
  rw [SymTable_expand, if_neg h1, if_neg h2, if_neg h3]
  exact ⟨rfl, rfl⟩

theorem expand_buckets_main (t : SymTable) (a : Bool)
    (h1 : ¬ BUCKET_COUNTS_LEN ≤ t.uBucketIndex + 1)
    (h2 : ¬ t.uLength ≤ t.uBucketCount) (h3 : ¬ a = false) :
    (SymTable_expand t a).ppsBuckets =
      (allBindings t).foldl
        (fun bs b => bucketsInsert bs
          (SymTable_hash b.pcKey (auBucketCounts.getD (t.uBucketIndex + 1) 0)) b)
        (SymTable_allocateBuckets (auBucketCounts.getD (t.uBucketIndex + 1) 0)) := by
  rw [SymTable_expand, if_neg h1, if_neg h2, if_neg h3]

theorem tableA_facts :
    TableInv tableA ∧ tableA.uBucketCount = 509 ∧ tableA.uBucketIndex = 0
    ∧ tableA.uLength = 510 := by
  refine ⟨TableInv_putSeq kvs510 SymTable_new TableInv_new,
    ((putSeq_fields kvs510 SymTable_new).1).trans rfl,
    ((putSeq_fields kvs510 SymTable_new).2).trans rfl, ?_⟩
  show (putSeq SymTable_new kvs510).uLength = 510
  rw [putSeq_length kvs510 SymTable_new TableInv_new kvs510_keys_nodup
    (fun kv _ => contains_new kv.1)]
  rw [kvs510, List.length_map, List.length_range]
  rfl

theorem tableA_gets : ∀ kv ∈ kvs510, SymTable_get tableA kv.1 = kv.2 :=
  putSeq_get kvs510 SymTable_new TableInv_new kvs510_keys_nodup
    (fun kv _ => contains_new kv.1)

theorem tableB_guards :
    ¬ BUCKET_COUNTS_LEN ≤ tableA.uBucketIndex + 1
    ∧ ¬ tableA.uLength ≤ tableA.uBucketCount ∧ ¬ true = false := by
  rcases tableA_facts with ⟨-, hcnt, hidx, hlen⟩
  refine ⟨?_, ?_, by simp⟩
  · rw [hidx]; decide
  · rw [hlen, hcnt]; decide

theorem tableB_facts :
    TableInv tableB ∧ tableB.uBucketCount = 1021 ∧ tableB.uLength = 510
    ∧ ∀ kv ∈ kvs510, SymTable_get tableB kv.1 = kv.2 := by
  rcases tableA_facts with ⟨hinvA, hcntA, hidxA, hlenA⟩
  rcases tableB_guards with ⟨hg1, hg2, hg3⟩
  rcases expand_fields_main tableA true hg1 hg2 hg3 with ⟨hcnt, hlen⟩
  rw [hidxA] at hcnt
  refine ⟨?_, ?_, ?_, ?_⟩
  · rw [tableB_eq_expand]
    exact (expand_spec tableA true hinvA).1
  · rw [tableB_eq_expand, hcnt]
    rfl
  · rw [tableB_eq_expand, hlen, hlenA]
  · intro kv hkv
    rw [tableB_eq_expand, expand_get tableA true kv.1 hinvA]
    exact tableA_gets kv hkv

theorem headq_map {α β : Type} (f : α → β) (l : List α) :
    (l.map f).head? = l.head?.map f := by
  cases l with
  | nil => rfl
  | cons a r => rfl

theorem bucketA_zero : bucketAt tableA 0 =
    [(⟨[2, 124], 379⟩ : Binding), ⟨[1, 62], 62⟩] := by
  have h := putSeq_bucket kvs510 0 SymTable_new TableInv_new kvs510_keys_nodup
    (fun kv _ => contains_new kv.1)
  have h509 : SymTable_new.uBucketCount = 509 := rfl
  rw [h509, bucketAt_new] at h
  show bucketAt (putSeq SymTable_new kvs510) 0 = _
  rw [h]
  rw [show kvs510.filter (fun kv => decide (SymTable_hash kv.1 509 = 0)) =
    [(([1, 62] : CStr), (62 : Nat)), (([2, 124] : CStr), (379 : Nat))] from by decide]
  rfl

theorem allBindingsA_perm : List.Perm (allBindings tableA)
    (kvs510.map (fun kv => (⟨kv.1, kv.2⟩ : Binding))) := by
  have h := putSeq_perm kvs510 SymTable_new TableInv_new kvs510_keys_nodup
    (fun kv _ => contains_new kv.1)
  rw [allBindings_new, List.append_nil] at h
  exact h

theorem mapListA_head : (SymTable_mapList tableA).head? =
    some ((([2, 124] : CStr), (379 : Nat))) := by
  rcases tableA_facts with ⟨-, hcntA, -, -⟩
  rw [SymTable_mapList, headq_map, allBindings]
  rw [flatten_headq_of_front_empty (bucketsOf tableA) 0
    (fun j hj => absurd hj (Nat.not_lt_zero j)) ?_]
  · rw [show (bucketsOf tableA).getD 0 [] = bucketAt tableA 0 from by
      rw [bucketsOf_getD]
      simp [hcntA]]
    rw [bucketA_zero]
    rfl
  · rw [show (bucketsOf tableA).getD 0 [] = bucketAt tableA 0 from by
      rw [bucketsOf_getD]
      simp [hcntA]]
    rw [bucketA_zero]
    simp

theorem tableB_bucket (j : Nat) (hj : j < 1021) :
    bucketAt tableB j =
      ((allBindings tableA).filter
        (fun b => decide (SymTable_hash b.pcKey 1021 = j))).reverse := by
  rcases tableA_facts with ⟨-, -, hidxA, -⟩
  rcases tableB_guards with ⟨hg1, hg2, hg3⟩
  have hb := expand_buckets_main tableA true hg1 hg2 hg3
  rw [hidxA] at hb
  have h1021 : auBucketCounts.getD (0 + 1) 0 = 1021 := rfl
  rw [h1021] at hb
  rw [bucketAt, tableB_eq_expand, hb]
  rw [rehash_fold_bucket 1021 (allBindings tableA) j _
    (by rw [SymTable_allocateBuckets, List.length_replicate]; exact hj)]
  rw [show (SymTable_allocateBuckets 1021).getD j ([] : List Binding) = [] from by
    rw [SymTable_allocateBuckets]; exact getD_replicate _ _ _]
  rw [List.append_nil]

theorem tableB_bucket_low (j : Nat) (hj : j < 256) : bucketAt tableB j = [] := by
  rw [tableB_bucket j (by omega)]
  rw [List.reverse_eq_nil_iff, List.filter_eq_nil_iff]
  intro b hb hbp
  have hmem := (allBindingsA_perm.mem_iff).mp hb
  rcases List.mem_map.mp hmem with ⟨kv, hkv, rfl⟩
  have hall : kvs510.all (fun kv => decide (256 ≤ SymTable_hash kv.1 1021)) = true := by
    decide
  have hge := List.all_eq_true.mp hall kv hkv
  simp only [decide_eq_true_eq] at hge hbp
  omega

theorem tableB_bucket256 : bucketAt tableB 256 = [(⟨[1, 1], 1⟩ : Binding)] := by
  rw [tableB_bucket 256 (by omega)]
  have hcnt : ((allBindings tableA).filter
      (fun b => decide (SymTable_hash b.pcKey 1021 = 256))).length = 1 := by
    rw [← List.countP_eq_length_filter,
      allBindingsA_perm.countP_eq, List.countP_map]
    decide
  rcases List.length_eq_one.mp hcnt with ⟨b, hb⟩
  have hbmem : b ∈ (allBindings tableA).filter
      (fun b => decide (SymTable_hash b.pcKey 1021 = 256)) := by
    rw [hb]
    exact List.mem_cons_self b []
  rcases List.mem_filter.mp hbmem with ⟨hbal, hbp⟩
  have hmem := (allBindingsA_perm.mem_iff).mp hbal
  rcases List.mem_map.mp hmem with ⟨kv, hkv, rfl⟩
  have hkvfil : kv ∈ kvs510.filter (fun kv => decide (SymTable_hash kv.1 1021 = 256)) :=
    List.mem_filter.mpr ⟨hkv, hbp⟩
  rw [show kvs510.filter (fun kv => decide (SymTable_hash kv.1 1021 = 256)) =
    [(([1, 1] : CStr), (1 : Nat))] from by decide] at hkvfil
  have hkveq : kv = (([1, 1] : CStr), (1 : Nat)) := by
    rcases List.mem_cons.mp hkvfil with he | he
    · exact he
    · cases he
  rw [hb, hkveq]
  rfl

theorem mapListB_head : (SymTable_mapList tableB).head? =
    some ((([1, 1] : CStr), (1 : Nat))) := by
  rcases tableB_facts with ⟨-, hcntB, -, -⟩
  rw [SymTable_mapList, headq_map, allBindings]
  rw [flatten_headq_of_front_empty (bucketsOf tableB) 256 ?_ ?_]
  · rw [show (bucketsOf tableB).getD 256 [] = bucketAt tableB 256 from by
      rw [bucketsOf_getD]
      simp [hcntB]]
    rw [tableB_bucket256]
    rfl
  · intro j hj
    rw [bucketsOf_getD]
    by_cases hjc : j < tableB.uBucketCount
    · rw [if_pos hjc]
      exact tableB_bucket_low j hj
    · rw [if_neg hjc]
  · rw [show (bucketsOf tableB).getD 256 [] = bucketAt tableB 256 from by
      rw [bucketsOf_getD]
      simp [hcntB]]
    rw [tableB_bucket256]
    simp

theorem get_found (t : SymTable) (k : CStr) (b : Binding)
    (hf : SymTable_findBinding t k = some b) : SymTable_get t k = b.pvValue := by
  rw [get_eq_findBinding, hf]
  rfl

theorem get_absent (t : SymTable) (k : CStr)
    (hf : SymTable_findBinding t k = none) : SymTable_get t k = 0 := by
  rw [get_eq_findBinding, hf]
  rfl

theorem contains_found (t : SymTable) (k : CStr) (b : Binding)
    (hf : SymTable_findBinding t k = some b) : SymTable_contains t k = 1 := by
  rw [contains_eq_findBinding, hf]
  rfl

theorem contains_absent (t : SymTable) (k : CStr)
    (hf : SymTable_findBinding t k = none) : SymTable_contains t k = 0 := by
  rw [contains_eq_findBinding, hf]
  rfl

theorem replace_absent (t : SymTable) (k : CStr) (v : Nat)
    (hf : SymTable_findBinding t k = none) : SymTable_replace t k v = (0, t) :=
  replace_shape_none t k v ((chainReplace_eq_none k v _).mpr hf)

theorem remove_absent (t : SymTable) (k : CStr)
    (hf : SymTable_findBinding t k = none) : SymTable_remove t k = (0, t) :=
  remove_shape_none t k ((chainRemove_eq_none k _).mpr hf)

theorem replace_found (t : SymTable) (k : CStr) (v : Nat) (b : Binding)
    (hf : SymTable_findBinding t k = some b) :
    (SymTable_replace t k v).1 = b.pvValue
    ∧ SymTable_get (SymTable_replace t k v).2 k = v
    ∧ (SymTable_replace t k v).2.uLength = t.uLength
    ∧ ∀ i, ((bucketAt (SymTable_replace t k v).2 i).map Binding.pcKey) =
        (bucketAt t i).map Binding.pcKey := by
  have hcf : chainFind k (bucketAt t (SymTable_hash k t.uBucketCount)) = some b := hf
  have heq := chainReplace_eq_some k v _ b hcf
  have hne : bucketAt t (SymTable_hash k t.uBucketCount) ≠ [] :=
    List.ne_nil_of_mem (chainFind_mem_key _ _ _ hcf).1
  have hjl := chain_in_range t _ hne
  rw [replace_shape_some t k v b.pvValue _ heq]
  refine ⟨rfl, ?_, rfl, ?_⟩
  · rw [SymTable_get]
    show chainGet k ((t.ppsBuckets.set (SymTable_hash k t.uBucketCount) _).getD
      (SymTable_hash k t.uBucketCount) []) = v
    rw [getD_set_self _ _ _ _ hjl]
    exact chainGet_setValue_self k v _ (by rw [hcf]; rfl)
  · intro i
    by_cases hi : i = SymTable_hash k t.uBucketCount
    · subst hi
      show (((t.ppsBuckets.set (SymTable_hash k t.uBucketCount) _).getD
        (SymTable_hash k t.uBucketCount) [])).map Binding.pcKey = _
      rw [getD_set_self _ _ _ _ hjl]
      exact chainSetValue_keys k v _
    · show (((t.ppsBuckets.set (SymTable_hash k t.uBucketCount) _).getD i [])).map
        Binding.pcKey = _
      rw [getD_set_ne _ _ _ _ _ (fun he => hi he.symm)]
      rfl

theorem chain_le_uLength (t : SymTable) (h : TableInv t) (j : Nat)
    (hj : j < t.uBucketCount) : (bucketAt t j).length ≤ t.uLength := by
  obtain ⟨hwf, -, -, hlen, -, -⟩ := h
  have hgd : (bucketsOf t).getD j [] = bucketAt t j := by
    rw [bucketsOf_getD]; simp [hj]
  have hjb : j < (bucketsOf t).length := by rw [bucketsOf_length]; exact hj
  have hdec := flatten_decompose (bucketsOf t) j hjb
  rw [hgd] at hdec
  have hablen : (allBindings t).length =
      (((bucketsOf t).take j).flatten).length +
      ((bucketAt t j).length + (((bucketsOf t).drop (j + 1)).flatten).length) := by
    rw [allBindings, hdec]; simp
  rw [allBindings_length] at hablen
  omega

theorem remove_found (t : SymTable) (k : CStr) (b : Binding) (h : TableInv t)
    (hf : SymTable_findBinding t k = some b) :
    (SymTable_remove t k).1 = b.pvValue
    ∧ (SymTable_remove t k).2.uLength + 1 = t.uLength
    ∧ SymTable_get (SymTable_remove t k).2 k = 0
    ∧ SymTable_contains (SymTable_remove t k).2 k = 0 := by
  have hcf : chainFind k (bucketAt t (SymTable_hash k t.uBucketCount)) = some b := hf
  have hne : bucketAt t (SymTable_hash k t.uBucketCount) ≠ [] :=
    List.ne_nil_of_mem (chainFind_mem_key _ _ _ hcf).1
  have hjl := chain_in_range t _ hne
  have hjc : SymTable_hash k t.uBucketCount < t.uBucketCount :=
    Nat.lt_of_lt_of_le hjl (Nat.le_of_eq (TableInv_wf t h))
  have hnd := chain_keys_nodup t h _ hjc
  rcases chainRemove_found k _ b hcf hnd with ⟨c2, hrem, hnone, hlenc⟩
  have hchle := chain_le_uLength t h _ hjc
  rw [remove_shape_some t k b.pvValue c2 hrem]
  refine ⟨rfl, ?_, ?_, ?_⟩
  · show t.uLength - 1 + 1 = t.uLength
    omega
  · rw [SymTable_get]
    show chainGet k ((t.ppsBuckets.set (SymTable_hash k t.uBucketCount) c2).getD
      (SymTable_hash k t.uBucketCount) []) = 0
    rw [getD_set_self _ _ _ _ hjl, chainGet_eq, hnone]
    rfl
  · rw [SymTable_contains]
    show (if chainContains k ((t.ppsBuckets.set (SymTable_hash k t.uBucketCount) c2).getD
      (SymTable_hash k t.uBucketCount) []) = true then 1 else 0) = 0
    rw [getD_set_self _ _ _ _ hjl, chainContains_eq_isSome, hnone]
    rfl

theorem foldl_hash_mod (key : CStr) : ∀ a : Nat,
    key.foldl (fun uHash c => (uHash * 65599 + c) % sizeTCard) (a % sizeTCard) =
      (key.foldl (fun uHash c => uHash * 65599 + c) a) % sizeTCard := by
  induction key with
  | nil => intro a; rfl
  | cons c rest ih =>
    intro a
    rw [List.foldl_cons, List.foldl_cons]
    rw [show (a % sizeTCard * 65599 + c) % sizeTCard = (a * 65599 + c) % sizeTCard from
      ((Nat.mod_modEq a sizeTCard).mul_right 65599).add_right c]
    exact ih (a * 65599 + c)

theorem getLength_eq (t : SymTable) : SymTable_getLength t = t.uLength := rfl

theorem remove_fst (t : SymTable) (k : CStr) (b : Binding)
    (hf : SymTable_findBinding t k = some b) :
    (SymTable_remove t k).1 = b.pvValue := by
  have hcf : chainFind k (bucketAt t (SymTable_hash k t.uBucketCount)) = some b := hf
  cases hrem : chainRemove k (bucketAt t (SymTable_hash k t.uBucketCount)) with
  | none => rw [(chainRemove_eq_none _ _).mp hrem] at hcf; cases hcf
  | some p =>
    obtain ⟨v0, c2⟩ := p
    rcases chainRemove_decompose k _ v0 c2 hrem with
      ⟨pre, bb, post, hcc, -, hbk, hbv, hpre⟩
    have hfbb : chainFind k (bucketAt t (SymTable_hash k t.uBucketCount)) = some bb := by
      rw [hcc, chainFind_append, (chainFind_eq_none_iff k pre).mpr hpre, chainFind]
      simp [hbk]
    rw [remove_shape_some t k v0 c2 hrem]
    rw [hcf] at hfbb
    have hb : b = bb := Option.some.inj hfbb
    show v0 = b.pvValue
    rw [hb, hbv]

/-- C1: growth scenario at the failing input of the code bug.  Putting the
510 distinct keys of kvs510 into a fresh table through the put of
src/symtablehash.c (which never calls SymTable_expand) leaves the bucket
count at 509 rather than the claimed 1021, while the same sequence through
the put of the part_000 copy performs exactly the claimed single size
class advance to 1021.  In both tables the length is 510 and every key is
still retrievable through get with its original value. -/
theorem C1_growth_scenario :
    tableA.uBucketCount = 509 ∧ SymTable_getLength tableA = 510
    ∧ (∀ kv ∈ kvs510, SymTable_get tableA kv.1 = kv.2)
    ∧ tableB.uBucketCount = 1021 ∧ SymTable_getLength tableB = 510
    ∧ (∀ kv ∈ kvs510, SymTable_get tableB kv.1 = kv.2)
    ∧ tableA.uBucketCount ≠ 1021 := by
  rcases tableA_facts with ⟨-, hcA, -, hlA⟩
  rcases tableB_facts with ⟨-, hcB, hlB, hgB⟩
  refine ⟨hcA, ?_, tableA_gets, hcB, ?_, hgB, by rw [hcA]; decide⟩
  · rw [getLength_eq]
    exact hlA
  · rw [getLength_eq]
    exact hlB

/-- C2 counterexample: the operation sequence inserting the 510 distinct
keys of kvs510 leaves observably different tables under the two disk
copies of put: SymTable_map hands the pairs to the callback in different
orders (already the first visited pair differs), because only the
part_000 copy expands at the growth triggering insertion. -/
theorem C2_counterexample : SymTable_mapList tableA ≠ SymTable_mapList tableB := by
  intro he
  have hh := congrArg List.head? he
  rw [mapListA_head, mapListB_head] at hh
  exact absurd hh (by decide)

/-- C2 amended: the shared lookup helper difference alone is behavior
neutral: helper based get, contains and replace equal the inline versions
on every table, and the helper based put equals the inline put on every
call that cannot trigger growth (uLength below uBucketCount); the two
copies diverge exactly at a growth triggering insertion, which only the
part_000 copy follows with an expansion. -/
theorem C2_copies_agree_without_growth :
    (∀ t k, SymTable_getH t k = SymTable_get t k)
    ∧ (∀ t k, SymTable_containsH t k = SymTable_contains t k)
    ∧ (∀ t k v, SymTable_replaceH t k v = SymTable_replace t k v)
    ∧ (∀ t k v aB aK aE, t.uLength < t.uBucketCount →
        SymTable_putH t k v aB aK aE = SymTable_put t k v aB aK) :=
  ⟨getH_eq_get, containsH_eq_contains, replaceH_eq_replace,
    fun t k v aB aK aE h => putH_eq_put t k v aB aK aE h⟩

/-- C2 witness for the amended claim at a concrete input. -/
theorem C2_copies_agree_without_growth_witness :
    SymTable_new.uLength < SymTable_new.uBucketCount
    ∧ SymTable_putH SymTable_new [1] 5 true true true =
      SymTable_put SymTable_new [1] 5 true true :=
  ⟨by decide,
    C2_copies_agree_without_growth.2.2.2 SymTable_new [1] 5 true true true (by decide)⟩

/-- C3 counterexample: with key 97 already present, put reports 0; a put
of a fresh key whose binding allocation fails also reports 0 and leaves
the table unchanged, and the two results are literally equal, so the
allocation failure outcome cannot be told apart from the already present
outcome. -/
theorem C3_counterexample :
    (SymTable_put (SymTable_put SymTable_new [97] 1 true true).2 [97] 9 true true).1 = 0
    ∧ (SymTable_put (SymTable_put SymTable_new [97] 1 true true).2 [98] 9 false true).1 = 0
    ∧ (SymTable_put (SymTable_put SymTable_new [97] 1 true true).2 [97] 9 true true) =
      (SymTable_put (SymTable_put SymTable_new [97] 1 true true).2 [98] 9 false true) := by
  decide

/-- C3 amended: the int result of put distinguishes only Inserted (1) from
the rest: on a present key it is 0 with the table unchanged, on an
allocation failure it is 0 with the table unchanged, and on a fresh key
with successful allocations it is 1 and the binding count grows by one;
already present and allocation failure share the return value 0. -/
theorem C3_put_outcomes (t : SymTable) (k : CStr) (v : Nat) (aB aK : Bool) :
    (SymTable_contains t k = 1 → SymTable_put t k v aB aK = (0, t))
    ∧ (SymTable_contains t k = 0 → (aB = false ∨ aK = false) →
        SymTable_put t k v aB aK = (0, t))
    ∧ (SymTable_contains t k = 0 →
        (SymTable_put t k v true true).1 = 1
        ∧ (SymTable_put t k v true true).2.uLength = t.uLength + 1) := by
  refine ⟨?_, ?_, ?_⟩
  · intro hc
    exact put_present t k v aB aK ((contains_one_iff t k).mp hc)
  · intro hc hfail
    have habs := (contains_zero_iff t k).mp hc
    rw [put_shape, if_neg (by simp [habs])]
    rcases hfail with hB | hK
    · rw [if_pos hB]
    · subst hK
      by_cases hB : aB = false
      · rw [if_pos hB]
      · rw [if_neg hB, if_pos rfl]
  · intro hc
    exact put_fresh_length t k v hc

/-- C3 witness for the amended claim at a concrete input. -/
theorem C3_put_outcomes_witness :
    SymTable_contains SymTable_new [7] = 0
    ∧ ((SymTable_put SymTable_new [7] 3 true true).1 = 1
      ∧ (SymTable_put SymTable_new [7] 3 true true).2.uLength =
        SymTable_new.uLength + 1) :=
  ⟨by decide, (C3_put_outcomes SymTable_new [7] 3 true true).2.2 (by decide)⟩

/-- C4: a successful put followed immediately by get on the same key
returns exactly the value just inserted, on every table satisfying the
data model invariants. -/
theorem C4_put_then_get (t : SymTable) (k : CStr) (v : Nat) (h : TableInv t)
    (hins : (SymTable_put t k v true true).1 = 1) :
    SymTable_get (SymTable_put t k v true true).2 k = v := by
  by_cases hc : chainContains k (bucketAt t (SymTable_hash k t.uBucketCount)) = true
  · rw [put_present t k v true true hc] at hins
    simp at hins
  · exact get_put_fresh t k v h (by simpa using hc)

/-- C4 witness at a concrete input. -/
theorem C4_put_then_get_witness :
    TableInv SymTable_new ∧ (SymTable_put SymTable_new [1] 7 true true).1 = 1
    ∧ SymTable_get (SymTable_put SymTable_new [1] 7 true true).2 [1] = 7 :=
  ⟨TableInv_new, by decide,
    C4_put_then_get SymTable_new [1] 7 TableInv_new (by decide)⟩

/-- C5: put on an already bound key returns 0 (the already present
outcome) and leaves the table entirely unchanged, so get still returns the
original value and the length is unchanged; the concrete scenario put of
key 97 value 1, key 98 value 2, key 97 value 3 yields results 1, 1, 0
with length 2 and get of key 97 equal to 1. -/
theorem C5_put_present_unchanged (t : SymTable) (k : CStr) (v1 v2 : Nat)
    (hc : SymTable_contains t k = 1) (hg : SymTable_get t k = v1) :
    SymTable_put t k v2 true true = (0, t)
    ∧ SymTable_get (SymTable_put t k v2 true true).2 k = v1
    ∧ SymTable_getLength (SymTable_put t k v2 true true).2 = SymTable_getLength t
    ∧ ((SymTable_put SymTable_new [97] 1 true true).1 = 1
      ∧ (SymTable_put (SymTable_put SymTable_new [97] 1 true true).2
          [98] 2 true true).1 = 1
      ∧ (SymTable_put (SymTable_put (SymTable_put SymTable_new [97] 1 true true).2
          [98] 2 true true).2 [97] 3 true true).1 = 0
      ∧ SymTable_getLength (SymTable_put (SymTable_put
          (SymTable_put SymTable_new [97] 1 true true).2
          [98] 2 true true).2 [97] 3 true true).2 = 2
      ∧ SymTable_get (SymTable_put (SymTable_put
          (SymTable_put SymTable_new [97] 1 true true).2
          [98] 2 true true).2 [97] 3 true true).2 [97] = 1) := by
  have hput := put_present t k v2 true true ((contains_one_iff t k).mp hc)
  refine ⟨hput, by rw [hput]; exact hg, by rw [hput], ?_⟩
  decide

/-- C5 witness at a concrete input. -/
theorem C5_put_present_unchanged_witness :
    SymTable_contains (SymTable_put SymTable_new [97] 1 true true).2 [97] = 1
    ∧ SymTable_get (SymTable_put SymTable_new [97] 1 true true).2 [97] = 1
    ∧ SymTable_put (SymTable_put SymTable_new [97] 1 true true).2 [97] 3 true true =
      (0, (SymTable_put SymTable_new [97] 1 true true).2) :=
  ⟨by decide, by decide,
    (C5_put_present_unchanged (SymTable_put SymTable_new [97] 1 true true).2 [97] 1 3
      (by decide) (by decide)).1⟩

/-- C6: replace on a bound key returns the previous value, a subsequent
get returns the new value, and neither the stored keys (bucket by bucket)
nor the length change; replace on an absent key returns NULL (0) and
leaves the table unchanged. -/
theorem C6_replace_spec (t : SymTable) (k : CStr) (v2 : Nat) :
    (∀ b : Binding, SymTable_findBinding t k = some b →
      (SymTable_replace t k v2).1 = b.pvValue
      ∧ SymTable_get (SymTable_replace t k v2).2 k = v2
      ∧ SymTable_getLength (SymTable_replace t k v2).2 = SymTable_getLength t
      ∧ ∀ i, ((bucketAt (SymTable_replace t k v2).2 i).map Binding.pcKey) =
          (bucketAt t i).map Binding.pcKey)
    ∧ (SymTable_findBinding t k = none → SymTable_replace t k v2 = (0, t)) := by
  constructor
  · intro b hf
    exact replace_found t k v2 b hf
  · exact replace_absent t k v2

/-- C6 witness at a concrete input. -/
theorem C6_replace_spec_witness :
    SymTable_findBinding (SymTable_put SymTable_new [5] 4 true true).2 [5] =
      some (⟨[5], 4⟩ : Binding)
    ∧ (SymTable_replace (SymTable_put SymTable_new [5] 4 true true).2 [5] 9).1 = 4
    ∧ SymTable_get
        (SymTable_replace (SymTable_put SymTable_new [5] 4 true true).2 [5] 9).2 [5] = 9 :=
  ⟨by decide,
    ((C6_replace_spec (SymTable_put SymTable_new [5] 4 true true).2 [5] 9).1
      ⟨[5], 4⟩ (by decide)).1,
    ((C6_replace_spec (SymTable_put SymTable_new [5] 4 true true).2 [5] 9).1
      ⟨[5], 4⟩ (by decide)).2.1⟩

/-- C7: remove on a bound key returns its value, shrinks the length by
exactly one, and afterwards get returns NULL (0) and contains returns 0;
remove on an absent key returns NULL (0) and changes nothing, in
particular the length. -/
theorem C7_remove_spec (t : SymTable) (k : CStr) (h : TableInv t) :
    (∀ b : Binding, SymTable_findBinding t k = some b →
      (SymTable_remove t k).1 = b.pvValue
      ∧ SymTable_getLength (SymTable_remove t k).2 + 1 = SymTable_getLength t
      ∧ SymTable_get (SymTable_remove t k).2 k = 0
      ∧ SymTable_contains (SymTable_remove t k).2 k = 0)
    ∧ (SymTable_findBinding t k = none → SymTable_remove t k = (0, t)) := by
  constructor
  · intro b hf
    exact remove_found t k b h hf
  · exact remove_absent t k

/-- C7 witness at a concrete input. -/
theorem C7_remove_spec_witness :
    TableInv (SymTable_put SymTable_new [9] 6 true true).2
    ∧ SymTable_findBinding (SymTable_put SymTable_new [9] 6 true true).2 [9] =
      some (⟨[9], 6⟩ : Binding)
    ∧ (SymTable_remove (SymTable_put SymTable_new [9] 6 true true).2 [9]).1 = 6 :=
  ⟨(TableInv_put SymTable_new [9] 6 true true TableInv_new).1, by decide,
    ((C7_remove_spec (SymTable_put SymTable_new [9] 6 true true).2 [9]
      (TableInv_put SymTable_new [9] 6 true true TableInv_new).1).1
      ⟨[9], 6⟩ (by decide)).1⟩

/-- C8: the hash equals the in order polynomial fold with multiplier
65599 wrapped at the size_t width (modulo 2 to the 64), reduced modulo
the bucket count; for every bucket count of the fixed size sequence the
result lies in the interval from 0 up to but excluding the bucket count,
and the function is deterministic. -/
theorem C8_hash_spec (key : CStr) (b : Nat) (hb : b ∈ auBucketCounts) :
    SymTable_hash key b = polyHash key % sizeTCard % b
    ∧ SymTable_hash key b < b
    ∧ ∀ key2 : CStr, key = key2 → SymTable_hash key b = SymTable_hash key2 b := by
  have hpos : 0 < b := by
    rw [auBucketCounts] at hb
    simp only [List.mem_cons, List.not_mem_nil, or_false] at hb
    rcases hb with rfl | rfl | rfl | rfl | rfl | rfl | rfl | rfl
    all_goals decide
  refine ⟨?_, hash_lt key b hpos, ?_⟩
  · have hm := foldl_hash_mod key 0
    rw [Nat.zero_mod] at hm
    rw [SymTable_hash, hm, polyHash]
  · intro key2 he
    rw [he]

/-- C8 witness at a concrete input. -/
theorem C8_hash_spec_witness :
    (509 : Nat) ∈ auBucketCounts
    ∧ SymTable_hash [104, 105] 509 = polyHash [104, 105] % sizeTCard % 509 :=
  ⟨by decide, (C8_hash_spec [104, 105] 509 (by decide)).1⟩

/-- C9: every mutating public operation preserves the data model
invariants TableInv (length equals the sum of chain lengths across all
buckets, no two bindings share a key, uBucketCount is an entry of the
fixed size sequence at position uBucketIndex, and every binding resides
in exactly the bucket of the hash of its key against the current
uBucketCount, including immediately after a resize), and the bucket count
never decreases.  Both disk copies of put are covered, as is
SymTable_expand itself; contains, get and map take no table state out, so
they preserve the invariants trivially. -/
theorem C9_invariants_preserved (t : SymTable) (k : CStr) (v : Nat)
    (aB aK aE : Bool) (h : TableInv t) :
    (TableInv (SymTable_put t k v aB aK).2
      ∧ t.uBucketCount ≤ (SymTable_put t k v aB aK).2.uBucketCount)
    ∧ (TableInv (SymTable_putH t k v aB aK aE).2
      ∧ t.uBucketCount ≤ (SymTable_putH t k v aB aK aE).2.uBucketCount)
    ∧ (TableInv (SymTable_expand t aE)
      ∧ t.uBucketCount ≤ (SymTable_expand t aE).uBucketCount)
    ∧ (TableInv (SymTable_replace t k v).2
      ∧ (SymTable_replace t k v).2.uBucketCount = t.uBucketCount)
    ∧ (TableInv (SymTable_remove t k).2
      ∧ (SymTable_remove t k).2.uBucketCount = t.uBucketCount) := by
  rcases TableInv_put t k v aB aK h with ⟨h1, h2⟩
  rcases TableInv_putH t k v aB aK aE h with ⟨h3, h4⟩
  rcases expand_spec t aE h with ⟨h5, h6, -, -⟩
  rcases TableInv_replace t k v h with ⟨h7, h8, -⟩
  rcases TableInv_remove t k h with ⟨h9, h10⟩
  exact ⟨⟨h1, Nat.le_of_eq h2.symm⟩, ⟨h3, h4⟩, ⟨h5, h6⟩, ⟨h7, h8⟩, ⟨h9, h10⟩⟩

/-- C9 witness at a concrete input. -/
theorem C9_invariants_preserved_witness :
    TableInv SymTable_new
    ∧ TableInv (SymTable_put SymTable_new [3] 2 true true).2 :=
  ⟨TableInv_new,
    (C9_invariants_preserved SymTable_new [3] 2 true true true TableInv_new).1.1⟩

/-- C10: a key bound to the NULL value (0) makes get, replace and remove
all return 0, the same value they return for an absent key, while
contains returns 1 against 0; so only contains distinguishes a NULL
valued binding from a missing key. -/
theorem C10_null_value (t : SymTable) (k : CStr) (v : Nat) :
    (∀ b : Binding, SymTable_findBinding t k = some b → b.pvValue = 0 →
      SymTable_get t k = 0
      ∧ (SymTable_replace t k v).1 = 0
      ∧ (SymTable_remove t k).1 = 0
      ∧ SymTable_contains t k = 1)
    ∧ (SymTable_findBinding t k = none →
      SymTable_get t k = 0
      ∧ (SymTable_replace t k v).1 = 0
      ∧ (SymTable_remove t k).1 = 0
      ∧ SymTable_contains t k = 0) := by
  constructor
  · intro b hf hv
    refine ⟨by rw [get_found t k b hf, hv], ?_, ?_, contains_found t k b hf⟩
    · rw [(replace_found t k v b hf).1, hv]
    · rw [remove_fst t k b hf, hv]
  · intro hf
    refine ⟨get_absent t k hf, ?_, ?_, contains_absent t k hf⟩
    · rw [replace_absent t k v hf]
    · rw [remove_absent t k hf]

/-- C10 witness at a concrete input. -/
theorem C10_null_value_witness :
    SymTable_findBinding (SymTable_put SymTable_new [4] 0 true true).2 [4] =
      some (⟨[4], 0⟩ : Binding)
    ∧ SymTable_get (SymTable_put SymTable_new [4] 0 true true).2 [4] = 0
    ∧ SymTable_contains (SymTable_put SymTable_new [4] 0 true true).2 [4] = 1 :=
  ⟨by decide,
    ((C10_null_value (SymTable_put SymTable_new [4] 0 true true).2 [4] 8).1
      ⟨[4], 0⟩ (by decide) rfl).1,
    ((C10_null_value (SymTable_put SymTable_new [4] 0 true true).2 [4] 8).1
      ⟨[4], 0⟩ (by decide) rfl).2.2.2⟩
